import Mathlib

set_option maxRecDepth 20000

/-!
Verification development for the Clearcast disclaimer calculator
(`src/streamlit_app.py`).

The Python program is embedded shallowly:

* Python `re` patterns are embedded as an explicit regex AST (`RE`) with a
  backtracking matcher (`matchN`) that returns all outcomes in the same
  priority order as Python's engine (alternatives left to right, greedy
  quantifiers, repetition bodies must consume at least one character, as
  Python's repeat-of-empty break rule ensures for these patterns).  The
  matcher carries explicit fuel that bounds star iterations; since every
  star iteration consumes at least one character, fuel `length + 1` is
  always sufficient and every driver calls it that way.
* Character classes and case folding follow Python's semantics restricted
  to ASCII (`\w` is modelled as ASCII alphanumeric or `_`, `\s` as
  `Char.isWhitespace`, `.lower()` as ASCII `Char.toLower`).  All inputs
  exercised by the claims are ASCII.
* The external `num2words` library is modelled by `num2words` /
  `num2wordsYear` below, faithful to the library's English cardinal and
  year renderings for the magnitudes the program exercises.
* Floating point durations are modelled with `ℚ` (0.2 = 1/5; the claimed
  values 2.0, 3.0 and the boundary facts are exact).
-/

/-- Character classes occurring in the program's regexes. -/
inductive CClass where
  | lit (c : Char)
  | litCI (c : Char)
  | digitC
  | alphaC
  | alnumC
  | alnumDashC
  | wordCh
  | wordAmp
  | spaceCh
  | notSpaceCh
deriving DecidableEq, Repr

/-- Membership of a character in a class (ASCII model of Python's classes). -/
def CClass.mem : CClass → Char → Bool
  | .lit c, x => x = c
  | .litCI c, x => x.toLower = c.toLower
  | .digitC, x => x.isDigit
  | .alphaC, x => x.isAlpha
  | .alnumC, x => x.isAlphanum
  | .alnumDashC, x => x.isAlphanum || x = '-'
  | .wordCh, x => x.isAlphanum || x = '_'
  | .wordAmp, x => x.isAlphanum || x = '_' || x = '&'
  | .spaceCh, x => x.isWhitespace
  | .notSpaceCh, x => !x.isWhitespace

/-- Regex AST: the fragment of Python `re` used by `streamlit_app.py`. -/
inductive RE where
  | eps
  | cls (C : CClass)
  | cat (a b : RE)
  | alt (a b : RE)
  | star (a : RE)
  | wordB
deriving DecidableEq, Repr

/-- Greedy `?` (try the body first, as Python does). -/
def RE.opt (a : RE) : RE := .alt a .eps

/-- Greedy `+`. -/
def RE.plus (a : RE) : RE := .cat a (.star a)

/-- A sequence of literal characters. -/
def RE.lits (l : List Char) : RE := l.foldr (fun c r => .cat (.cls (.lit c)) r) .eps

/-- `{2,}` over a class, greedy. -/
def RE.rep2 (C : CClass) : RE := .cat (.cls C) (.cat (.cls C) (.star (.cls C)))

/-- Python's `\w` word characters (ASCII model). -/
def isWordChar (c : Char) : Bool := c.isAlphanum || c = '_'

def wordOpt : Option Char → Bool
  | none => false
  | some c => isWordChar c

/-- Python's `\b`: word-character status flips between the previous
character (`none` at the edges) and the next character. -/
def isBoundary (prev : Option Char) (s : List Char) : Bool :=
  wordOpt prev != (match s with | [] => false | c :: _ => isWordChar c)

/-- One layer of the backtracking matcher.  An outcome is
`(last consumed character, remaining suffix)`; outcomes are listed in
Python's backtracking priority order, so the head is the match Python
reports.  `rec` handles further star iterations (one fuel level down). -/
def matchGo (rec : RE → Option Char → List Char → List (Option Char × List Char)) :
    RE → Option Char → List Char → List (Option Char × List Char)
  | .eps, p, s => [(p, s)]
  | .cls C, _, s =>
    match s with
    | [] => []
    | c :: t => if C.mem c then [(some c, t)] else []
  | .cat a b, p, s => (matchGo rec a p s).flatMap (fun o => matchGo rec b o.1 o.2)
  | .alt a b, p, s => matchGo rec a p s ++ matchGo rec b p s
  | .star a, p, s =>
    ((matchGo rec a p s).filter (fun o => o.2.length < s.length)).flatMap
      (fun o => rec (.star a) o.1 o.2) ++ [(p, s)]
  | .wordB, p, s => if isBoundary p s then [(p, s)] else []

/-- Fueled matcher; fuel is spent only on star iterations, so
`s.length + 1` fuel always suffices (each iteration consumes a character). -/
def matchN : Nat → RE → Option Char → List Char → List (Option Char × List Char)
  | 0, r, p, s => matchGo (fun _ _ _ => []) r p s
  | n + 1, r, p, s => matchGo (matchN n) r p s

/-- The match Python's engine reports at this position, if any. -/
def matchAt (r : RE) (p : Option Char) (s : List Char) : Option (Option Char × List Char) :=
  (matchN (s.length + 1) r p s).head?

/-- `re.sub` driver (no capture groups): scan left to right, replace each
leftmost non-overlapping match with `repl`.  A zero-width match copies the
current character and advances (Python's behaviour; unused here since all
patterns consume). -/
def subREAux (r : RE) (repl : List Char) : Nat → Option Char → List Char → List Char
  | 0, _, s => s
  | f + 1, prev, s =>
    match s with
    | [] => []
    | c :: t =>
      match matchAt r prev s with
      | some o =>
        if o.2.length < s.length then repl ++ subREAux r repl f o.1 o.2
        else repl ++ c :: subREAux r repl f (some c) t
      | none => c :: subREAux r repl f (some c) t

def subRE (r : RE) (repl : List Char) (s : List Char) : List Char :=
  subREAux r repl (s.length + 1) none s

/-- `re.findall` driver: collect the matched spans left to right. -/
def findallAux (r : RE) : Nat → Option Char → List Char → List (List Char)
  | 0, _, _ => []
  | f + 1, prev, s =>
    match s with
    | [] => []
    | c :: t =>
      match matchAt r prev s with
      | some o =>
        if o.2.length < s.length then
          s.take (s.length - o.2.length) :: findallAux r f o.1 o.2
        else findallAux r f (some c) t
      | none => findallAux r f (some c) t

def findallRE (r : RE) (s : List Char) : List (List Char) :=
  findallAux r (s.length + 1) none s

/-- URL pattern `(?:https?://)?(?:www\.)?([a-zA-Z0-9-]+\.)+[a-zA-Z]{2,}(?:/[^\s]*)?`
(line 51; no IGNORECASE flag, so the literals are case sensitive). -/
def schemeRE : RE := .cat (.lits ['h', 't', 't', 'p']) (.cat (RE.opt (.cls (.lit 's'))) (.lits [':', '/', '/']))

def labelDotRE : RE := .cat (RE.plus (.cls .alnumDashC)) (.cls (.lit '.'))

def pathRE : RE := .cat (.cls (.lit '/')) (.star (.cls .notSpaceCh))

def urlRE : RE :=
  .cat (RE.opt schemeRE)
    (.cat (RE.opt (.lits ['w', 'w', 'w', '.']))
      (.cat (RE.plus labelDotRE)
        (.cat (RE.rep2 .alphaC) (RE.opt pathRE))))

/-- Postcode outward group `([A-Z]{1,2}\d[A-Z\d]?)` (IGNORECASE, line 55). -/
def pcG1 : RE := .cat (.cls .alphaC) (.cat (RE.opt (.cls .alphaC)) (.cat (.cls .digitC) (RE.opt (.cls .alnumC))))

/-- Postcode inward group `(\d[A-Z]{2})`. -/
def pcG2 : RE := .cat (.cls .digitC) (.cat (.cls .alphaC) (.cls .alphaC))

def pcSpaces : RE := .star (.cls .spaceCh)

/-- Abbreviation pattern `\bTs?\s?&\s?Cs\b` (IGNORECASE, line 60). -/
def tcsRE : RE :=
  .cat .wordB (.cat (.cls (.litCI 't')) (.cat (RE.opt (.cls (.litCI 's')))
    (.cat (RE.opt (.cls .spaceCh)) (.cat (.cls (.lit '&')) (.cat (RE.opt (.cls .spaceCh))
      (.cat (.cls (.litCI 'c')) (.cat (.cls (.litCI 's')) .wordB)))))))

/-- `\bp\.?a\.?\b` (IGNORECASE, line 61). -/
def paRE : RE :=
  .cat .wordB (.cat (.cls (.litCI 'p')) (.cat (RE.opt (.cls (.lit '.')))
    (.cat (.cls (.litCI 'a')) (.cat (RE.opt (.cls (.lit '.'))) .wordB))))

/-- `\bR\.?O\.?I\.?\b` (IGNORECASE, line 62). -/
def roiRE : RE :=
  .cat .wordB (.cat (.cls (.litCI 'r')) (.cat (RE.opt (.cls (.lit '.')))
    (.cat (.cls (.litCI 'o')) (.cat (RE.opt (.cls (.lit '.')))
      (.cat (.cls (.litCI 'i')) (.cat (RE.opt (.cls (.lit '.'))) .wordB))))))

/-- `\bN\.?I\.?\b` (IGNORECASE, line 63). -/
def niRE : RE :=
  .cat .wordB (.cat (.cls (.litCI 'n')) (.cat (RE.opt (.cls (.lit '.')))
    (.cat (.cls (.litCI 'i')) (.cat (RE.opt (.cls (.lit '.'))) .wordB))))

/-- Generic token pattern `\b[\w&]+\b` (line 78). -/
def tokenRE : RE := .cat .wordB (.cat (RE.plus (.cls .wordAmp)) .wordB)

/-- Number-word pattern `\b\w+\b` (line 109). -/
def numWordRE : RE := .cat .wordB (.cat (RE.plus (.cls .wordCh)) .wordB)

/-- Postcode match at the current position, returning the rewritten text
`\1 \2` together with the continuation state.  Mirrors
`re.sub(r'\b([A-Z]{1,2}\d[A-Z\d]?)\s*(\d[A-Z]{2})\b', r'\1 \2', ...)`:
the three pieces are composed in backtracking priority order, and the
trailing `\b` filters candidate inward groups. -/
def pcMatchAt (p : Option Char) (s : List Char) : Option (List Char × Option Char × List Char) :=
  if isBoundary p s then
    (((matchN (s.length + 1) pcG1 p s).flatMap (fun o1 =>
      (matchN (s.length + 1) pcSpaces o1.1 o1.2).flatMap (fun o2 =>
        ((matchN (s.length + 1) pcG2 o2.1 o2.2).filter (fun o3 => isBoundary o3.1 o3.2)).map
          (fun o3 =>
            (s.take (s.length - o1.2.length) ++ ' ' :: o2.2.take (o2.2.length - o3.2.length),
             o3.1, o3.2))))).head?)
  else none

/-- Driver for the postcode substitution. -/
def pcSubAux : Nat → Option Char → List Char → List Char
  | 0, _, s => s
  | f + 1, prev, s =>
    match s with
    | [] => []
    | c :: t =>
      match pcMatchAt prev s with
      | some o =>
        if o.2.2.length < s.length then o.1 ++ pcSubAux f o.2.1 o.2.2
        else c :: pcSubAux f (some c) t
      | none => c :: pcSubAux f (some c) t

def pcSub (s : List Char) : List Char := pcSubAux (s.length + 1) none s

/-- Case-insensitive literal prefix test: if (lower-cased) `pat` begins
`s`, return the remainder.  Models `re.escape(excl)` with IGNORECASE. -/
def dropCI : List Char → List Char → Option (List Char)
  | [], s => some s
  | _, [] => none
  | p :: ps, c :: cs => if c.toLower = p.toLower then dropCI ps cs else none

/-- `re.sub(re.escape(excl), " ", text, flags=IGNORECASE)`: each leftmost
non-overlapping case-insensitive occurrence becomes a single space. -/
def ciSubstAux (pat : List Char) : Nat → List Char → List Char
  | 0, s => s
  | f + 1, s =>
    match s with
    | [] => []
    | c :: t =>
      match dropCI pat s with
      | some rest => ' ' :: ciSubstAux pat f rest
      | none => c :: ciSubstAux pat f t

def ciSubst (pat s : List Char) : List Char := ciSubstAux pat (s.length + 1) s

/-- Split on a comma, as Python `str.split(',')`. -/
def splitComma : List Char → List (List Char) → List Char → List (List Char)
  | [], acc, cur => (acc ++ [cur.reverse])
  | c :: t, acc, cur =>
    if c = ',' then splitComma t (acc ++ [cur.reverse]) []
    else splitComma t acc (c :: cur)

/-- Python `str.strip()` (ASCII whitespace model). -/
def stripWS (l : List Char) : List Char :=
  ((l.dropWhile Char.isWhitespace).reverse.dropWhile Char.isWhitespace).reverse

/-- Lines 34-39: split the exclusions string on commas, strip entries,
skip empties, and sequentially erase each case-insensitive occurrence. -/
def applyExclusions (exclusions : String) (s : List Char) : List Char :=
  if exclusions = "" then s
  else
    (splitComma exclusions.data [] []).foldl
      (fun acc e =>
        let e' := stripWS e
        if e' = [] then acc else ciSubst e' acc) s

/-- `re.split(r'(\d+)', text)` in effect: tag maximal runs as digit runs
(`true`) or non-digit spans (`false`), in order. -/
def splitRunsAux : List Char → Option (Bool × List Char) → List (Bool × List Char)
  | [], none => []
  | [], some (b, acc) => [(b, acc.reverse)]
  | c :: t, none => splitRunsAux t (some (c.isDigit, [c]))
  | c :: t, some (b, acc) =>
    if c.isDigit = b then splitRunsAux t (some (b, c :: acc))
    else (b, acc.reverse) :: splitRunsAux t (some (c.isDigit, [c]))

def splitRuns (s : List Char) : List (Bool × List Char) := splitRunsAux s none

/-- English number words 0..19 (as in the num2words library). -/
def onesW (n : Nat) : String :=
  ["zero", "one", "two", "three", "four", "five", "six", "seven", "eight", "nine",
   "ten", "eleven", "twelve", "thirteen", "fourteen", "fifteen", "sixteen",
   "seventeen", "eighteen", "nineteen"].getD n ""

/-- English tens words (index 2..9). -/
def tensW (n : Nat) : String :=
  ["", "", "twenty", "thirty", "forty", "fifty", "sixty", "seventy", "eighty",
   "ninety"].getD n ""

/-- Cardinal rendering below 100, hyphenated as num2words does. -/
def below100 (n : Nat) : String :=
  if n < 20 then onesW n
  else tensW (n / 10) ++ (if n % 10 = 0 then "" else "-" ++ onesW (n % 10))

/-- Cardinal rendering below 1000; num2words (lang en) inserts "and"
between the hundreds and the remainder. -/
def below1000 (n : Nat) : String :=
  if n < 100 then below100 n
  else below100 (n / 100) ++ " hundred" ++
    (if n % 100 = 0 then "" else " and " ++ below100 (n % 100))

/-- Scale words for base-1000 groups. -/
def scaleW (i : Nat) : String :=
  ["", " thousand", " million", " billion", " trillion", " quadrillion",
   " quintillion", " sextillion"].getD i ""

/-- Base-1000 digits of `n`, little-endian. -/
def groups1000 : Nat → Nat → List Nat
  | 0, _ => []
  | _ + 1, 0 => []
  | fuel + 1, n => n % 1000 :: groups1000 fuel (n / 1000)

/-- Glue between a higher segment and the next one, per num2words'
`merge`: " and " before a final segment below 100, otherwise ", ". -/
def joinSegs : List (Nat × Nat) → String
  | [] => ""
  | (g, i) :: rest =>
    (if g < 100 && i == 0 then " and " else ", ") ++ below1000 g ++ scaleW i ++ joinSegs rest

/-- Modelled from the external num2words library (English cardinal):
`num2words(n)`.  Faithful for the magnitudes the program exercises
(behaviour above 10^24 is not modelled; the spec treats overflowing
numerals as a precondition violation of the converter). -/
def num2words (n : Nat) : String :=
  if n = 0 then "zero"
  else
    match (((groups1000 8 n).enum.map (fun p => (p.snd, p.fst))).filter (fun gi => gi.1 ≠ 0)).reverse with
    | [] => ""
    | (g, i) :: rest => below1000 g ++ scaleW i ++ joinSegs rest

/-- Modelled from the external num2words library:
`num2words(n, to='year')` for the range 2010..2099 in which the program
calls it ("twenty " followed by the cardinal of the last two digits);
other values fall back to the cardinal, which the program never hits. -/
def num2wordsYear (n : Nat) : String :=
  if 2010 ≤ n ∧ n ≤ 2099 then "twenty " ++ below100 (n % 100) else num2words n

/-- Lines 15-26: `convert_number_smart`. -/
def convert_number_smart (number_val : Nat) : String :=
  if 1100 ≤ number_val ∧ number_val ≤ 1999 then
    num2words (number_val / 100) ++ " hundred" ++
      (if number_val % 100 > 0 then " and " ++ num2words (number_val % 100) else "")
  else if 2010 ≤ number_val ∧ number_val ≤ 2099 then num2wordsYear number_val
  else num2words number_val

/-- ASCII model of Python `str.lower()`. -/
def lowerStr (s : String) : String := String.mk (s.data.map Char.toLower)

/-- `int(num_str)` for digit strings (the only strings the program feeds
it); non-digit characters never occur there and are read as zero. -/
def natOfDigits (s : String) : Nat :=
  s.data.foldl (fun a c => a * 10 + (if c.isDigit then c.toNat - 48 else 0)) 0

/-- Line 6: `WORDS_TO_IGNORE_IN_NUMBERS`. -/
def WORDS_TO_IGNORE_IN_NUMBERS : List String := ["hundred", "thousand", "and"]

/-- Lines 42-48: the placeholder-to-display map. -/
def token_map : List (String × String) :=
  [("SAFE_TOKEN_URL", "[URL]"), ("SAFE_TOKEN_TCS", "T&Cs"), ("SAFE_TOKEN_PA", "p.a."),
   ("SAFE_TOKEN_ROI", "ROI"), ("SAFE_TOKEN_NI", "NI")]

def mapToken (t : String) : String :=
  match token_map.lookup t with
  | some v => v
  | none => t

/-- Lines 59-66: the abbreviation substitutions, in source order. -/
def abbrevList : List (RE × String) :=
  [(tcsRE, "SAFE_TOKEN_TCS"), (paRE, "SAFE_TOKEN_PA"), (roiRE, "SAFE_TOKEN_ROI"),
   (niRE, "SAFE_TOKEN_NI")]

/-- Lines 74-83 for one non-digit span: tokenize with `\b[\w&]+\b` and map
placeholders back to their display surface forms. -/
def tokensOfSpan (s : List Char) : List String :=
  (findallRE tokenRE s).map (fun w => mapToken (String.mk w))

/-- Lines 28-85: `extract_tokens`. -/
def extract_tokens (text : String) (exclusions : String) : List String × List String :=
  if text = "" then ([], [])
  else
    let t1 := applyExclusions exclusions text.data
    let t2 := subRE urlRE ("SAFE_TOKEN_URL".data) t1
    let t3 := pcSub t2
    let t4 := abbrevList.foldl (fun acc pr => subRE pr.1 pr.2.data acc) t3
    let runs := splitRuns t4
    (runs.flatMap (fun r => if r.1 then [] else tokensOfSpan r.2),
     runs.flatMap (fun r => if r.1 then [String.mk r.2] else []))

/-- Lines 92-99: first-occurrence dedup of manual tokens by lower-cased
key (`seen` is the set of keys already taken). -/
def uniqueTokens : List String → List String → List String
  | _, [] => []
  | seen, w :: ws =>
    if seen.contains (lowerStr w) then uniqueTokens seen ws
    else w :: uniqueTokens (lowerStr w :: seen) ws

/-- Lines 105-112 for one surviving numeral: its non-ignored expansion
words. -/
def numeralWords (numStr : String) : List String :=
  let spoken := convert_number_smart (natOfDigits numStr)
  ((findallRE numWordRE (lowerStr spoken).data).map String.mk).filter
    (fun w => !WORDS_TO_IGNORE_IN_NUMBERS.contains w)

/-- Lines 101-112: the numbers pass, with its literal-string seen set. -/
def numberPass : List String → List String → Nat × List String
  | _, [] => (0, [])
  | seen, n :: ns =>
    if seen.contains n then numberPass seen ns
    else
      let vw := numeralWords n
      let r := numberPass (n :: seen) ns
      (vw.length + r.1, vw ++ r.2)

/-- Lines 87-115: `calculate_word_lists`. -/
def calculate_word_lists (text_tokens : List String) (number_strings : List String) :
    Nat × List String :=
  let ut := uniqueTokens [] text_tokens
  let np := numberPass [] number_strings
  (ut.length + np.1, ut ++ np.2)

/-- Lines 117-122: `calculate_duration`, modelled over ℚ
(0.2s per word plus tiered recognition time). -/
def calculate_duration (word_count : Nat) : ℚ × ℚ :=
  if word_count = 0 then (0, 0)
  else
    let rt : ℚ := if word_count ≥ 10 then 3 else 2
    ((word_count : ℚ) * (1 / 5) + rt, rt)

/-- Lines 157-160: processing of the main block. -/
def processMain (main_text brand_exclusions : String) : Nat × List String :=
  let e := extract_tokens main_text brand_exclusions
  calculate_word_lists e.1 e.2

/-- Lines 162-173: processing of the additional block after the main
block: its tokens are filtered against the main block's lower-cased
manual tokens and literal number strings, then aggregated standalone. -/
def processAdditional (main_text add_text brand_exclusions : String) : Nat × List String :=
  let m := extract_tokens main_text brand_exclusions
  let a := extract_tokens add_text brand_exclusions
  let unique_add_tokens := a.1.filter (fun t => !(m.1.map lowerStr).contains (lowerStr t))
  let unique_add_nums := a.2.filter (fun n => !m.2.contains n)
  calculate_word_lists unique_add_tokens unique_add_nums

/-- First-occurrence dedup of a list (used to state the aggregation
claims; `numberPass` is proved to follow it). -/
def dedupFirst : List String → List String → List String
  | _, [] => []
  | seen, n :: ns =>
    if seen.contains n then dedupFirst seen ns
    else n :: dedupFirst (n :: seen) ns

/-- Nullability over-approximation: can the regex match without consuming
a character (`wordB` counts as nullable). -/
def nullB : RE → Bool
  | .eps => true
  | .cls _ => false
  | .cat a b => nullB a && nullB b
  | .alt a b => nullB a || nullB b
  | .star _ => true
  | .wordB => true

/-- First-character over-approximation: can a match of `r` begin by
consuming `c`. -/
def firstB : RE → Char → Bool
  | .eps, _ => false
  | .cls C, c => C.mem c
  | .cat a b, c => firstB a c || (nullB a && firstB b c)
  | .alt a b, c => firstB a c || firstB b c
  | .star a, c => firstB a c
  | .wordB, _ => false

/-- Boolean list-prefix test. -/
def startsL : List Char → List Char → Bool
  | [], _ => true
  | _, [] => false
  | p :: ps, c :: cs => if c = p then startsL ps cs else false

/-- Scheme choice for the URL family. -/
inductive UrlScheme where
  | none
  | http
  | https
deriving DecidableEq, Repr

def UrlScheme.render : UrlScheme → List Char
  | .none => []
  | .http => "http://".data
  | .https => "https://".data

/-- The rendered optional path: `/` followed by its characters. -/
def pathStr : Option (List Char) → List Char
  | some pl => '/' :: pl
  | none => []

/-- A standalone URL-shaped text: optional scheme, optional `www.`,
dot-terminated hostname labels, TLD, optional path. -/
def renderUrl (sch : UrlScheme) (www : Bool) (ls : List (List Char)) (tld : List Char)
    (path : Option (List Char)) : List Char :=
  sch.render ++ (if www then "www.".data else []) ++ ls.flatMap (fun l => l ++ ['.']) ++ tld ++
    pathStr path

/-- A `T&Cs`-family variant per `\bTs?\s?&\s?Cs\b`: optional `s`,
optional single spaces around `&`, everything optionally upper-cased. -/
def tcsVariant (hasS sp1 sp2 up : Bool) : String :=
  String.mk ([if up then 'T' else 't'] ++ (if hasS then [if up then 'S' else 's'] else []) ++
    (if sp1 then [' '] else []) ++ ['&'] ++ (if sp2 then [' '] else []) ++
    [if up then 'C' else 'c', if up then 'S' else 's'])

/-- A `p.a.`-family variant per `\bp\.?a\.?\b`. -/
def paVariant (d1 d2 up : Bool) : String :=
  String.mk ([if up then 'P' else 'p'] ++ (if d1 then ['.'] else []) ++
    [if up then 'A' else 'a'] ++ (if d2 then ['.'] else []))

/-- An `ROI`-family variant per `\bR\.?O\.?I\.?\b`. -/
def roiVariant (d1 d2 d3 up : Bool) : String :=
  String.mk ([if up then 'R' else 'r'] ++ (if d1 then ['.'] else []) ++
    [if up then 'O' else 'o'] ++ (if d2 then ['.'] else []) ++
    [if up then 'I' else 'i'] ++ (if d3 then ['.'] else []))

/-- An `NI`-family variant per `\bN\.?I\.?\b`. -/
def niVariant (d1 d2 up : Bool) : String :=
  String.mk ([if up then 'N' else 'n'] ++ (if d1 then ['.'] else []) ++
    [if up then 'I' else 'i'] ++ (if d2 then ['.'] else []))

/-! ## Aggregator lemmas -/

theorem numberPass_eq (seen ns : List String) :
    numberPass seen ns =
      (((dedupFirst seen ns).map (fun n => (numeralWords n).length)).sum,
       (dedupFirst seen ns).flatMap numeralWords) := by
  induction ns generalizing seen with
  | nil => simp [numberPass, dedupFirst]
  | cons n ns ih =>
    by_cases h : n ∈ seen
    · simp [numberPass, dedupFirst, h, ih]
    · simp [numberPass, dedupFirst, h, ih]

theorem uniqueTokens_sublist (seen tokens : List String) :
    (uniqueTokens seen tokens).Sublist tokens := by
  induction tokens generalizing seen with
  | nil => simp [uniqueTokens]
  | cons w ws ih =>
    by_cases h : lowerStr w ∈ seen
    · simp only [uniqueTokens]
      rw [if_pos (by simpa using h)]
      exact (ih seen).trans (List.sublist_cons_self w ws)
    · simp only [uniqueTokens]
      rw [if_neg (by simpa using h)]
      exact (ih _).cons₂ w

theorem uniqueTokens_not_seen (seen tokens : List String) (w : String)
    (h : w ∈ uniqueTokens seen tokens) : lowerStr w ∉ seen := by
  induction tokens generalizing seen with
  | nil => simp [uniqueTokens] at h
  | cons v vs ih =>
    by_cases hv : lowerStr v ∈ seen
    · rw [uniqueTokens, if_pos (by simpa using hv)] at h
      exact ih seen h
    · rw [uniqueTokens, if_neg (by simpa using hv)] at h
      rcases List.mem_cons.mp h with rfl | h'
      · exact hv
      · have := ih (lowerStr v :: seen) h'
        intro hmem
        exact this (List.mem_cons_of_mem _ hmem)

theorem uniqueTokens_pairwise (seen tokens : List String) :
    (uniqueTokens seen tokens).Pairwise (fun a b => lowerStr a ≠ lowerStr b) := by
  induction tokens generalizing seen with
  | nil => simp [uniqueTokens]
  | cons v vs ih =>
    by_cases hv : lowerStr v ∈ seen
    · rw [uniqueTokens, if_pos (by simpa using hv)]
      exact ih seen
    · rw [uniqueTokens, if_neg (by simpa using hv)]
      refine List.Pairwise.cons ?_ (ih _)
      intro b hb
      have hns := uniqueTokens_not_seen _ _ _ hb
      intro hEq
      exact hns (by rw [← hEq]; exact List.mem_cons_self _ _)

theorem uniqueTokens_append_dup (seen : List String) (tokens : List String) (t : String)
    (h : lowerStr t ∈ seen ∨ lowerStr t ∈ tokens.map lowerStr) :
    uniqueTokens seen (tokens ++ [t]) = uniqueTokens seen tokens := by
  induction tokens generalizing seen with
  | nil =>
    rcases h with h | h
    · simp [uniqueTokens, h]
    · simp at h
  | cons v vs ih =>
    simp only [List.cons_append, uniqueTokens]
    by_cases hv : lowerStr v ∈ seen
    · rw [if_pos (by simpa using hv), if_pos (by simpa using hv)]
      refine ih seen ?_
      rcases h with h | h
      · exact Or.inl h
      · rcases List.mem_map.mp h with ⟨u, hu, hku⟩
        rcases List.mem_cons.mp hu with rfl | hu'
        · exact Or.inl (by rw [← hku]; exact hv)
        · exact Or.inr (List.mem_map.mpr ⟨u, hu', hku⟩)
    · rw [if_neg (by simpa using hv), if_neg (by simpa using hv)]
      congr 1
      refine ih _ ?_
      rcases h with h | h
      · exact Or.inl (List.mem_cons_of_mem _ h)
      · rcases List.mem_map.mp h with ⟨u, hu, hku⟩
        rcases List.mem_cons.mp hu with rfl | hu'
        · exact Or.inl (by rw [← hku]; exact List.mem_cons_self _ _)
        · exact Or.inr (List.mem_map.mpr ⟨u, hu', hku⟩)

/-! ## Claims about the aggregator and the duration formula -/

/-- C3: numeral occurrences are deduplicated by literal digit string only,
independently of the manual-token set and of other numerals' expansions:
the numeral contribution to count and display is a function of the
number-string list alone (first occurrence of each literal string
survives, and all its non-ignored expansion words are appended), even when
those words already occur as manual tokens or as another numeral's words.
Concretely, "007" and "7" are distinct and both contribute "seven";
"1139" twice contributes once; a manual "seven" does not suppress a
numeral's "seven". -/
theorem claim_C3 :
    (∀ text_tokens number_strings : List String,
        calculate_word_lists text_tokens number_strings =
          ((uniqueTokens [] text_tokens).length +
             ((dedupFirst [] number_strings).map (fun n => (numeralWords n).length)).sum,
           uniqueTokens [] text_tokens ++ (dedupFirst [] number_strings).flatMap numeralWords))
    ∧ calculate_word_lists [] ["007", "7"] = (2, ["seven", "seven"])
    ∧ calculate_word_lists ["seven"] ["7"] = (2, ["seven", "seven"])
    ∧ calculate_word_lists [] ["1139", "1139"] = (3, ["eleven", "thirty", "nine"]) :=
  ⟨fun tt ns => by simp [calculate_word_lists, numberPass_eq],
   by decide, by decide, by decide⟩

/-- C4: manual tokens are deduplicated by case-insensitive key with the
first occurrence's surface form kept (the surviving manual tokens are a
sublist of the input, pairwise distinct on lower-cased keys), a repeated
key contributes nothing, and the display list is the surviving manual
tokens in order followed by the surviving numerals' expansion words in
occurrence order, each numeral's words contiguous. -/
theorem claim_C4 (text_tokens number_strings : List String) :
    (calculate_word_lists text_tokens number_strings).2 =
        uniqueTokens [] text_tokens ++ (dedupFirst [] number_strings).flatMap numeralWords
    ∧ (uniqueTokens [] text_tokens).Sublist text_tokens
    ∧ (uniqueTokens [] text_tokens).Pairwise (fun a b => lowerStr a ≠ lowerStr b)
    ∧ (∀ t, lowerStr t ∈ text_tokens.map lowerStr →
        calculate_word_lists (text_tokens ++ [t]) number_strings =
          calculate_word_lists text_tokens number_strings) := by
  refine ⟨?_, uniqueTokens_sublist _ _, uniqueTokens_pairwise _ _, ?_⟩
  · simp [calculate_word_lists, numberPass_eq]
  · intro t ht
    simp [calculate_word_lists, uniqueTokens_append_dup [] text_tokens t (Or.inr ht)]

/-- Witness for C4: a case-variant repeat of "Apply" contributes zero. -/
theorem claim_C4_witness :
    calculate_word_lists ["Apply", "today", "APPLY"] [] =
      calculate_word_lists ["Apply", "today"] [] := by
  have h := (claim_C4 ["Apply", "today"] []).2.2.2 "APPLY" (by decide)
  simpa using h

/-- C10: the count returned by `calculate_word_lists` equals the length of
the display list it returns. -/
theorem claim_C10 (text_tokens number_strings : List String) :
    (calculate_word_lists text_tokens number_strings).1 =
      (calculate_word_lists text_tokens number_strings).2.length := by
  simp [calculate_word_lists, numberPass_eq, List.length_flatMap, Function.comp_def]

/-- C8: `calculate_duration` returns (0, 0) at zero words, recognition
time 2.0 for 1..9 words, 3.0 from 10 words on, and total =
word_count x 0.2 + recognition time; boundary values 9 and 10 included. -/
theorem claim_C8 :
    calculate_duration 0 = (0, 0)
    ∧ (∀ wc : Nat, 1 ≤ wc → wc ≤ 9 →
        calculate_duration wc = ((wc : ℚ) * (1 / 5) + 2, 2))
    ∧ (∀ wc : Nat, 10 ≤ wc →
        calculate_duration wc = ((wc : ℚ) * (1 / 5) + 3, 3))
    ∧ calculate_duration 9 = ((9 : ℚ) * (1 / 5) + 2, 2)
    ∧ calculate_duration 10 = ((10 : ℚ) * (1 / 5) + 3, 3) := by
  refine ⟨by decide, ?_, ?_, by norm_num [calculate_duration], by norm_num [calculate_duration]⟩
  · intro wc h1 h9
    rw [calculate_duration, if_neg (by omega)]
    simp [show ¬ wc ≥ 10 by omega]
  · intro wc h10
    rw [calculate_duration, if_neg (by omega)]
    simp [show wc ≥ 10 from h10]

/-- Witness for C8: word count 5 gives total 3.0 and recognition 2.0. -/
theorem claim_C8_witness : calculate_duration 5 = ((5 : ℚ) * (1 / 5) + 2, 2) :=
  claim_C8.2.1 5 (by decide) (by decide)

/-- C2: `convert_number_smart` renders 1100..1999 as
"<hundreds-word> hundred" with " and <remainder-word>" exactly when the
remainder is positive, 2010..2099 in calendar-year pronunciation, and
everything else as the standard cardinal; the countable words of a
numeral are the word-split lower-cased rendering with "hundred",
"thousand", "and" dropped.  Concretely 1139 gives
["eleven", "thirty", "nine"] and 2024 gives year-reading words
["twenty", "twenty", "four"]. -/
theorem claim_C2 :
    (∀ v : Nat, 1100 ≤ v → v ≤ 1999 →
        convert_number_smart v =
          num2words (v / 100) ++ " hundred" ++
            (if v % 100 > 0 then " and " ++ num2words (v % 100) else ""))
    ∧ (∀ v : Nat, 2010 ≤ v → v ≤ 2099 →
        convert_number_smart v = "twenty " ++ below100 (v % 100))
    ∧ (∀ v : Nat, ¬ (1100 ≤ v ∧ v ≤ 1999) → ¬ (2010 ≤ v ∧ v ≤ 2099) →
        convert_number_smart v = num2words v)
    ∧ (∀ s : String, numeralWords s =
        ((findallRE numWordRE (lowerStr (convert_number_smart (natOfDigits s))).data).map
            String.mk).filter (fun w => !WORDS_TO_IGNORE_IN_NUMBERS.contains w))
    ∧ numeralWords "1139" = ["eleven", "thirty", "nine"]
    ∧ convert_number_smart 1139 = "eleven hundred and thirty-nine"
    ∧ numeralWords "2024" = ["twenty", "twenty", "four"]
    ∧ convert_number_smart 2024 = "twenty twenty-four" := by
  refine ⟨?_, ?_, ?_, fun s => rfl, by decide, by decide, by decide, by decide⟩
  · intro v h1 h2
    rw [convert_number_smart, if_pos ⟨h1, h2⟩]
  · intro v h1 h2
    rw [convert_number_smart, if_neg (by omega), if_pos ⟨h1, h2⟩,
      num2wordsYear, if_pos ⟨h1, h2⟩]
  · intro v h1 h2
    rw [convert_number_smart, if_neg h1, if_neg h2]

/-- Witness for C2: the teen-hundred branch at 1150 ("eleven hundred and
fifty") and the year branch at 2024. -/
theorem claim_C2_witness :
    convert_number_smart 1150 = "eleven hundred and fifty"
    ∧ convert_number_smart 2024 = "twenty twenty-four" :=
  ⟨(claim_C2.1 1150 (by decide) (by decide)).trans (by decide),
   (claim_C2.2.1 2024 (by decide) (by decide)).trans (by decide)⟩

/-! ## Claims about the block pipeline -/

/-- C1: when an additional block is processed after a main block, the
additional block's manual tokens whose lower-cased key occurs among the
main block's manual tokens, and its number strings occurring among the
main block's number strings, are removed before aggregation (no surviving
token has a main-block key), and the remainder is aggregated exactly as a
standalone block by `calculate_word_lists`.  Concretely
main "apply today" counts 2 and additional "today only" counts 1. -/
theorem claim_C1 :
    (∀ main_text add_text brand_exclusions : String,
        processAdditional main_text add_text brand_exclusions =
          calculate_word_lists
            ((extract_tokens add_text brand_exclusions).1.filter (fun t =>
              !((extract_tokens main_text brand_exclusions).1.map lowerStr).contains (lowerStr t)))
            ((extract_tokens add_text brand_exclusions).2.filter (fun n =>
              !(extract_tokens main_text brand_exclusions).2.contains n)))
    ∧ (∀ main_text add_text brand_exclusions t : String,
        t ∈ (extract_tokens add_text brand_exclusions).1.filter (fun t =>
            !((extract_tokens main_text brand_exclusions).1.map lowerStr).contains (lowerStr t)) →
        lowerStr t ∉ (extract_tokens main_text brand_exclusions).1.map lowerStr)
    ∧ processMain "apply today" "" = (2, ["apply", "today"])
    ∧ processAdditional "apply today" "today only" "" = (1, ["only"]) := by
  refine ⟨fun m a e => rfl, ?_, by decide, by decide⟩
  intro m a e t ht
  have h := (List.mem_filter.mp ht).2
  simpa using h

/-- Witness for C1: the surviving additional token "only" has no
main-block key. -/
theorem claim_C1_witness :
    lowerStr "only" ∉ (extract_tokens "apply today" "").1.map lowerStr :=
  claim_C1.2.1 "apply today" "today only" "" "only" (by decide)

/-- C7 fails on the code: after the postcode rewrite, the generic
digit-run split cuts each postcode further, so "SW1A 1AA" yields three
text tokens and two numeral occurrences, not exactly two word-tokens. -/
theorem claim_C7_counterexample :
    extract_tokens "SW1A1AA" "" = (["SW", "A", "AA"], ["1", "1"])
    ∧ extract_tokens "SW1A 1AA" "" = (["SW", "A", "AA"], ["1", "1"])
    ∧ (extract_tokens "SW1A 1AA" "").1.length + (extract_tokens "SW1A 1AA" "").2.length ≠ 2
    ∧ (extract_tokens "SW1A 1AA" "").1 ≠ ["SW1A", "1AA"] := by decide

/-- C7 amended: the postcode is rewritten with a single separating space,
so the spaced and unspaced forms normalize identically and are never
collapsed to one token; the digit-run split then yields text tokens
["SW", "A", "AA"] and numerals ["1", "1"], counting 4 words. -/
theorem claim_C7_amended :
    extract_tokens "SW1A1AA" "" = extract_tokens "SW1A 1AA" ""
    ∧ extract_tokens "SW1A1AA" "" = (["SW", "A", "AA"], ["1", "1"])
    ∧ processMain "SW1A1AA" "" = (4, ["SW", "A", "AA", "one"])
    ∧ processMain "SW1A 1AA" "" = (4, ["SW", "A", "AA", "one"])
    ∧ (extract_tokens "SW1A1AA" "").1.length + (extract_tokens "SW1A1AA" "").2.length > 1 := by
  decide

/-- C5 fails on the code: in "x&bit.ly" the substring "bit.ly" matches
the URL pattern and is replaced by the placeholder, but the placeholder
is glued to "x&" by the `&`-including tokenizer, so the block's display
token is "x&SAFE_TOKEN_URL", not "[URL]". -/
theorem claim_C5_counterexample :
    subRE urlRE ("SAFE_TOKEN_URL".data) ("x&bit.ly".data) = ("x&SAFE_TOKEN_URL".data)
    ∧ processMain "x&bit.ly" "" = (1, ["x&SAFE_TOKEN_URL"])
    ∧ "[URL]" ∉ (processMain "x&bit.ly" "").2 := by decide

/-- C6 fails on the code in two ways: in "T&Cs&x" the variant "T&Cs"
matches and is replaced, but the trailing "&x" is glued onto the
placeholder by the `&`-including tokenizer, so no token carries the
canonical display form; and the table variant "R.OI" is captured by the
earlier URL protection ("R." as hostname label, "OI" as TLD), surfacing
as "[URL]" instead of "ROI". -/
theorem claim_C6_counterexample :
    subRE tcsRE ("SAFE_TOKEN_TCS".data) ("T&Cs&x".data) = ("SAFE_TOKEN_TCS&x".data)
    ∧ extract_tokens "T&Cs&x" "" = (["SAFE_TOKEN_TCS&x"], [])
    ∧ "T&Cs" ∉ (extract_tokens "T&Cs&x" "").1
    ∧ extract_tokens "R.OI" "" = (["[URL]"], [])
    ∧ "ROI" ∉ (extract_tokens "R.OI" "").1 := by decide

/-- C6 amended: every standalone variant of the fixed abbreviation table
(the `T&Cs` family with optional `s` and optional single spaces around
`&`, `p.a.`/`pa` with optional dots, `R.O.I.`/`ROI`, `N.I.`/`NI`, each in
either letter case) normalizes to exactly one token carrying its
canonical display surface form, except that an `&` gluing the variant to
neighbouring word characters absorbs the placeholder into a larger token
and the `R.OI`-shaped variants (first dot present, second absent) are
captured by the earlier URL protection; in particular "Ts & Cs", "T&Cs"
and "Ts&Cs" each yield exactly the token "T&Cs". -/
theorem claim_C6_amended :
    (∀ hasS sp1 sp2 up : Bool, extract_tokens (tcsVariant hasS sp1 sp2 up) "" = (["T&Cs"], []))
    ∧ (∀ d1 d2 up : Bool, extract_tokens (paVariant d1 d2 up) "" = (["p.a."], []))
    ∧ (∀ d1 d2 d3 up : Bool, (d1 = true → d2 = true) →
        extract_tokens (roiVariant d1 d2 d3 up) "" = (["ROI"], []))
    ∧ (∀ d1 d2 up : Bool, extract_tokens (niVariant d1 d2 up) "" = (["NI"], []))
    ∧ extract_tokens "Ts & Cs" "" = (["T&Cs"], [])
    ∧ extract_tokens "T&Cs" "" = (["T&Cs"], [])
    ∧ extract_tokens "Ts&Cs" "" = (["T&Cs"], []) := by
  refine ⟨by decide, by decide, ?_, by decide, by decide, by decide, by decide⟩
  decide

/-- Witness for C6 amended: the fully dotted variant "R.O.I." yields the
single canonical token "ROI". -/
theorem claim_C6_amended_witness :
    extract_tokens (roiVariant true true true true) "" = (["ROI"], []) :=
  claim_C6_amended.2.2.1 true true true true (fun _ => rfl)

/-! ## Engine metatheory: suffix, nullability, first characters -/

theorem matchGo_suffix
    (rec : RE → Option Char → List Char → List (Option Char × List Char))
    (hrec : ∀ q p s o, o ∈ rec q p s → o.2 <:+ s) :
    ∀ r p s o, o ∈ matchGo rec r p s → o.2 <:+ s := by
  intro r
  induction r with
  | eps =>
    intro p s o ho
    simp only [matchGo, List.mem_singleton] at ho
    subst ho
    exact List.suffix_refl s
  | cls C =>
    intro p s o ho
    cases s with
    | nil => simp [matchGo] at ho
    | cons c t =>
      simp only [matchGo] at ho
      by_cases hc : CClass.mem C c
      · rw [if_pos hc] at ho
        simp only [List.mem_singleton] at ho
        subst ho
        exact List.suffix_cons c t
      · rw [if_neg hc] at ho
        simp at ho
  | cat a b iha ihb =>
    intro p s o ho
    simp only [matchGo, List.mem_flatMap] at ho
    obtain ⟨o1, ho1, ho2⟩ := ho
    exact (ihb _ _ _ ho2).trans (iha _ _ _ ho1)
  | alt a b iha ihb =>
    intro p s o ho
    rcases List.mem_append.mp ho with h | h
    · exact iha _ _ _ h
    · exact ihb _ _ _ h
  | star a iha =>
    intro p s o ho
    simp only [matchGo] at ho
    rcases List.mem_append.mp ho with h | h
    · rcases List.mem_flatMap.mp h with ⟨o1, ho1, ho2⟩
      have h1 : o1 ∈ matchGo rec a p s := (List.mem_filter.mp ho1).1
      exact (hrec _ _ _ _ ho2).trans (iha _ _ _ h1)
    · simp only [List.mem_singleton] at h
      subst h
      exact List.suffix_refl s
  | wordB =>
    intro p s o ho
    simp only [matchGo] at ho
    by_cases hb : isBoundary p s
    · rw [if_pos hb] at ho
      simp only [List.mem_singleton] at ho
      subst ho
      exact List.suffix_refl s
    · rw [if_neg hb] at ho
      simp at ho

theorem matchN_suffix :
    ∀ n r p s o, o ∈ matchN n r p s → o.2 <:+ s := by
  intro n
  induction n with
  | zero => exact fun r p s o ho => matchGo_suffix _ (fun q p s o h => absurd h (List.not_mem_nil o)) r p s o ho
  | succ n ih => exact fun r p s o ho => matchGo_suffix _ ih r p s o ho

theorem matchGo_null
    (rec : RE → Option Char → List Char → List (Option Char × List Char))
    (hrecS : ∀ q p s o, o ∈ rec q p s → o.2 <:+ s) :
    ∀ r p s o, o ∈ matchGo rec r p s → o.2 = s → nullB r = true := by
  intro r
  induction r with
  | eps => intro p s o ho he; rfl
  | cls C =>
    intro p s o ho he
    cases s with
    | nil => simp [matchGo] at ho
    | cons c t =>
      simp only [matchGo] at ho
      by_cases hc : CClass.mem C c
      · rw [if_pos hc] at ho
        simp only [List.mem_singleton] at ho
        subst ho
        simp at he
      · rw [if_neg hc] at ho
        simp at ho
  | cat a b iha ihb =>
    intro p s o ho he
    simp only [matchGo, List.mem_flatMap] at ho
    obtain ⟨o1, ho1, ho2⟩ := ho
    have hs1 : o1.2 <:+ s := matchGo_suffix rec hrecS a p s o1 ho1
    have hs2 : o.2 <:+ o1.2 := matchGo_suffix rec hrecS b o1.1 o1.2 o ho2
    have h1 : o1.2 = s := by
      refine hs1.eq_of_length ?_
      have l1 := hs1.length_le
      have l2 := hs2.length_le
      rw [he] at l2
      omega
    simp only [nullB, Bool.and_eq_true]
    exact ⟨iha _ _ _ ho1 h1, ihb _ _ _ ho2 (by rw [he, ← h1])⟩
  | alt a b iha ihb =>
    intro p s o ho he
    simp only [nullB, Bool.or_eq_true]
    rcases List.mem_append.mp ho with h | h
    · exact Or.inl (iha _ _ _ h he)
    · exact Or.inr (ihb _ _ _ h he)
  | star a iha => intro p s o ho he; rfl
  | wordB => intro p s o ho he; rfl

theorem matchN_null :
    ∀ n r p s o, o ∈ matchN n r p s → o.2 = s → nullB r = true := by
  intro n
  induction n with
  | zero =>
    exact fun r p s o ho he =>
      matchGo_null _ (fun q p s o h => absurd h (List.not_mem_nil o)) r p s o ho he
  | succ n ih => exact fun r p s o ho he => matchGo_null _ (matchN_suffix n) r p s o ho he

theorem matchGo_first
    (rec : RE → Option Char → List Char → List (Option Char × List Char))
    (hrecS : ∀ q p s o, o ∈ rec q p s → o.2 <:+ s) :
    ∀ r p s o, o ∈ matchGo rec r p s →
      o.2 = s ∨ ∃ c t, s = c :: t ∧ firstB r c = true := by
  intro r
  induction r with
  | eps =>
    intro p s o ho
    simp only [matchGo, List.mem_singleton] at ho
    subst ho
    exact Or.inl rfl
  | cls C =>
    intro p s o ho
    cases s with
    | nil => simp [matchGo] at ho
    | cons c t =>
      simp only [matchGo] at ho
      by_cases hc : CClass.mem C c
      · exact Or.inr ⟨c, t, rfl, hc⟩
      · rw [if_neg hc] at ho
        simp at ho
  | cat a b iha ihb =>
    intro p s o ho
    simp only [matchGo, List.mem_flatMap] at ho
    obtain ⟨o1, ho1, ho2⟩ := ho
    rcases iha _ _ _ ho1 with h1 | ⟨c, t, hs, hf⟩
    · subst h1
      rcases ihb _ _ _ ho2 with h2 | ⟨c, t, hs, hf⟩
      · exact Or.inl h2
      · refine Or.inr ⟨c, t, hs, ?_⟩
        have hn : nullB a = true := matchGo_null rec hrecS a p _ o1 ho1 rfl
        simp [firstB, hn, hf]
    · refine Or.inr ⟨c, t, hs, ?_⟩
      simp [firstB, hf]
  | alt a b iha ihb =>
    intro p s o ho
    rcases List.mem_append.mp ho with h | h
    · rcases iha _ _ _ h with h1 | ⟨c, t, hs, hf⟩
      · exact Or.inl h1
      · exact Or.inr ⟨c, t, hs, by simp [firstB, hf]⟩
    · rcases ihb _ _ _ h with h1 | ⟨c, t, hs, hf⟩
      · exact Or.inl h1
      · exact Or.inr ⟨c, t, hs, by simp [firstB, hf]⟩
  | star a iha =>
    intro p s o ho
    simp only [matchGo] at ho
    rcases List.mem_append.mp ho with h | h
    · rcases List.mem_flatMap.mp h with ⟨o1, ho1, ho2⟩
      have h1 : o1 ∈ matchGo rec a p s := (List.mem_filter.mp ho1).1
      have hlt : o1.2.length < s.length := by
        have := (List.mem_filter.mp ho1).2
        simpa using this
      rcases iha _ _ _ h1 with h2 | ⟨c, t, hs, hf⟩
      · rw [h2] at hlt
        omega
      · exact Or.inr ⟨c, t, hs, by simpa [firstB] using hf⟩
    · simp only [List.mem_singleton] at h
      subst h
      exact Or.inl rfl
  | wordB =>
    intro p s o ho
    simp only [matchGo] at ho
    by_cases hb : isBoundary p s
    · rw [if_pos hb] at ho
      simp only [List.mem_singleton] at ho
      subst ho
      exact Or.inl rfl
    · rw [if_neg hb] at ho
      simp at ho

theorem matchN_first :
    ∀ n r p s o, o ∈ matchN n r p s →
      o.2 = s ∨ ∃ c t, s = c :: t ∧ firstB r c = true := by
  intro n
  induction n with
  | zero =>
    exact fun r p s o ho =>
      matchGo_first _ (fun q p s o h => absurd h (List.not_mem_nil o)) r p s o ho
  | succ n ih => exact fun r p s o ho => matchGo_first _ (matchN_suffix n) r p s o ho

/-- A regex that cannot match empty and whose first-character set misses
the head of `s` has no match at this position. -/
theorem matchN_nil (n : Nat) (r : RE) (p : Option Char) (s : List Char)
    (hn : nullB r = false)
    (hf : ∀ c t, s = c :: t → firstB r c = false) :
    matchN n r p s = [] := by
  refine List.eq_nil_iff_forall_not_mem.mpr (fun o ho => ?_)
  rcases matchN_first n r p s o ho with h | ⟨c, t, hs, hfc⟩
  · rw [matchN_null n r p s o ho h] at hn
    exact Bool.noConfusion hn
  · rw [hf c t hs] at hfc
    exact Bool.noConfusion hfc

/-! ## Whitespace-only inputs (C9) -/

theorem ws_first_false (c : Char) (h : c.isWhitespace = true) :
    firstB urlRE c = false ∧ firstB tcsRE c = false ∧ firstB paRE c = false
    ∧ firstB roiRE c = false ∧ firstB niRE c = false ∧ firstB tokenRE c = false
    ∧ firstB pcG1 c = false ∧ c.isDigit = false := by
  have h4 : ((c = ' ' ∨ c = '\t') ∨ c = '\x0d') ∨ c = '\n' := by
    simpa [Char.isWhitespace] using h
  rcases h4 with ((rfl | rfl) | rfl) | rfl <;> decide

theorem subREAux_ws_id (r : RE) (repl : List Char) (hn : nullB r = false)
    (hf : ∀ c, c.isWhitespace = true → firstB r c = false) :
    ∀ f p s, s.all Char.isWhitespace = true → subREAux r repl f p s = s := by
  intro f
  induction f with
  | zero => intro p s _; rfl
  | succ f ih =>
    intro p s hs
    cases s with
    | nil => rfl
    | cons c t =>
      rw [List.all_cons, Bool.and_eq_true] at hs
      have hnil : matchN ((c :: t).length + 1) r p (c :: t) = [] := by
        refine matchN_nil _ _ _ _ hn ?_
        intro c' t' he
        injection he with h1 h2
        subst h1
        exact hf _ hs.1
      have hm : matchAt r p (c :: t) = none := by
        rw [matchAt, hnil]
        rfl
      simp only [subREAux, hm]
      rw [ih (some c) t hs.2]

theorem findallAux_ws_nil (r : RE) (hn : nullB r = false)
    (hf : ∀ c, c.isWhitespace = true → firstB r c = false) :
    ∀ f p s, s.all Char.isWhitespace = true → findallAux r f p s = [] := by
  intro f
  induction f with
  | zero => intro p s _; rfl
  | succ f ih =>
    intro p s hs
    cases s with
    | nil => rfl
    | cons c t =>
      rw [List.all_cons, Bool.and_eq_true] at hs
      have hnil : matchN ((c :: t).length + 1) r p (c :: t) = [] := by
        refine matchN_nil _ _ _ _ hn ?_
        intro c' t' he
        injection he with h1 h2
        subst h1
        exact hf _ hs.1
      have hm : matchAt r p (c :: t) = none := by
        rw [matchAt, hnil]
        rfl
      simp only [findallAux, hm]
      exact ih (some c) t hs.2

theorem pcMatchAt_ws_none (p : Option Char) (s : List Char)
    (hs : s.all Char.isWhitespace = true) : pcMatchAt p s = none := by
  have hg : matchN (s.length + 1) pcG1 p s = [] := by
    refine matchN_nil _ _ _ _ (by decide) ?_
    intro c t he
    subst he
    rw [List.all_cons, Bool.and_eq_true] at hs
    exact (ws_first_false c hs.1).2.2.2.2.2.2.1
  rw [pcMatchAt]
  by_cases hb : isBoundary p s
  · rw [if_pos hb, hg]
    rfl
  · rw [if_neg hb]

theorem pcSubAux_ws_id :
    ∀ f p s, s.all Char.isWhitespace = true → pcSubAux f p s = s := by
  intro f
  induction f with
  | zero => intro p s _; rfl
  | succ f ih =>
    intro p s hs
    cases s with
    | nil => rfl
    | cons c t =>
      have hm := pcMatchAt_ws_none p (c :: t) hs
      rw [List.all_cons, Bool.and_eq_true] at hs
      simp only [pcSubAux, hm]
      rw [ih (some c) t hs.2]

theorem dropCI_suffix (pat : List Char) :
    ∀ s r, dropCI pat s = some r → r <:+ s := by
  induction pat with
  | nil =>
    intro s r h
    simp only [dropCI, Option.some.injEq] at h
    subst h
    exact List.suffix_refl s
  | cons p ps ih =>
    intro s r h
    cases s with
    | nil => simp [dropCI] at h
    | cons c cs =>
      simp only [dropCI] at h
      by_cases hc : c.toLower = p.toLower
      · rw [if_pos hc] at h
        exact (ih cs r h).trans (List.suffix_cons c cs)
      · rw [if_neg hc] at h
        simp at h

theorem allWS_suffix {s r : List Char} (h : r <:+ s)
    (hs : s.all Char.isWhitespace = true) : r.all Char.isWhitespace = true := by
  obtain ⟨u, rfl⟩ := h
  rw [List.all_append, Bool.and_eq_true] at hs
  exact hs.2

theorem ciSubstAux_ws (pat : List Char) :
    ∀ f s, s.all Char.isWhitespace = true →
      (ciSubstAux pat f s).all Char.isWhitespace = true := by
  intro f
  induction f with
  | zero => intro s hs; exact hs
  | succ f ih =>
    intro s hs
    cases s with
    | nil => exact hs
    | cons c t =>
      cases hd : dropCI pat (c :: t) with
      | some rest =>
        simp only [ciSubstAux, hd]
        rw [List.all_cons, Bool.and_eq_true]
        exact ⟨by decide, ih rest (allWS_suffix (dropCI_suffix pat _ rest hd) hs)⟩
      | none =>
        rw [List.all_cons, Bool.and_eq_true] at hs
        simp only [ciSubstAux, hd]
        rw [List.all_cons, Bool.and_eq_true]
        exact ⟨hs.1, ih t hs.2⟩

theorem applyExclusions_ws (exclusions : String) (s : List Char)
    (hs : s.all Char.isWhitespace = true) :
    (applyExclusions exclusions s).all Char.isWhitespace = true := by
  rw [applyExclusions]
  by_cases he : exclusions = ""
  · rw [if_pos he]; exact hs
  · rw [if_neg he]
    generalize splitComma exclusions.data [] [] = entries
    induction entries generalizing s with
    | nil => exact hs
    | cons e es ih =>
      simp only [List.foldl_cons]
      by_cases h0 : stripWS e = []
      · simp only [h0, if_pos rfl]
        exact ih s hs
      · simp only [if_neg h0]
        exact ih _ (ciSubstAux_ws (stripWS e) _ s hs)

theorem splitRunsAux_ws :
    ∀ (s : List Char) (acc : Option (Bool × List Char)),
      s.all Char.isWhitespace = true →
      (∀ b l, acc = some (b, l) → b = false ∧ l.all Char.isWhitespace = true) →
      ∀ rn ∈ splitRunsAux s acc, rn.1 = false ∧ rn.2.all Char.isWhitespace = true := by
  intro s
  induction s with
  | nil =>
    intro acc hs hacc rn hrn
    cases acc with
    | none => simp [splitRunsAux] at hrn
    | some bl =>
      obtain ⟨b, l⟩ := bl
      simp only [splitRunsAux, List.mem_singleton] at hrn
      subst hrn
      obtain ⟨hb, hl⟩ := hacc b l rfl
      exact ⟨hb, by simpa using hl⟩
  | cons c t ih =>
    intro acc hs hacc rn hrn
    rw [List.all_cons, Bool.and_eq_true] at hs
    have hcd : c.isDigit = false := (ws_first_false c hs.1).2.2.2.2.2.2.2
    cases acc with
    | none =>
      simp only [splitRunsAux] at hrn
      refine ih _ hs.2 ?_ rn hrn
      intro b l he
      injection he with he'
      injection he' with hb hl
      subst hb
      subst hl
      exact ⟨hcd, by simpa using hs.1⟩
    | some bl =>
      obtain ⟨b, l⟩ := bl
      obtain ⟨hb, hl⟩ := hacc b l rfl
      subst hb
      simp only [splitRunsAux, hcd, if_pos rfl] at hrn
      refine ih _ hs.2 ?_ rn hrn
      intro b' l' he
      injection he with he'
      injection he' with hb' hl'
      subst hb'
      subst hl'
      rw [List.all_cons, Bool.and_eq_true]
      exact ⟨rfl, ⟨hs.1, hl⟩⟩

theorem tokensOfSpan_ws (s : List Char) (hs : s.all Char.isWhitespace = true) :
    tokensOfSpan s = [] := by
  rw [tokensOfSpan, findallRE,
    findallAux_ws_nil tokenRE (by decide) (fun c hc => (ws_first_false c hc).2.2.2.2.2.1) _ none s hs]
  rfl

theorem extract_tokens_ws (text brand_exclusions : String)
    (h : text.data.all Char.isWhitespace = true) :
    extract_tokens text brand_exclusions = ([], []) := by
  by_cases h0 : text = ""
  · rw [extract_tokens, if_pos h0]
  · rw [extract_tokens, if_neg h0]
    dsimp only
    have h1 : (applyExclusions brand_exclusions text.data).all Char.isWhitespace = true :=
      applyExclusions_ws brand_exclusions text.data h
    generalize hq : applyExclusions brand_exclusions text.data = q at h1
    have e2 : subRE urlRE ("SAFE_TOKEN_URL".data) q = q := by
      rw [subRE]
      exact subREAux_ws_id urlRE _ (by decide)
        (fun c hc => (ws_first_false c hc).1) _ none q h1
    rw [e2]
    have e3 : pcSub q = q := by
      rw [pcSub]
      exact pcSubAux_ws_id _ none q h1
    rw [e3]
    have eT : subRE tcsRE ("SAFE_TOKEN_TCS".data) q = q := by
      rw [subRE]
      exact subREAux_ws_id tcsRE _ (by decide)
        (fun c hc => (ws_first_false c hc).2.1) _ none q h1
    have eP : subRE paRE ("SAFE_TOKEN_PA".data) q = q := by
      rw [subRE]
      exact subREAux_ws_id paRE _ (by decide)
        (fun c hc => (ws_first_false c hc).2.2.1) _ none q h1
    have eR : subRE roiRE ("SAFE_TOKEN_ROI".data) q = q := by
      rw [subRE]
      exact subREAux_ws_id roiRE _ (by decide)
        (fun c hc => (ws_first_false c hc).2.2.2.1) _ none q h1
    have eN : subRE niRE ("SAFE_TOKEN_NI".data) q = q := by
      rw [subRE]
      exact subREAux_ws_id niRE _ (by decide)
        (fun c hc => (ws_first_false c hc).2.2.2.2.1) _ none q h1
    have e4 : abbrevList.foldl (fun acc pr => subRE pr.1 pr.2.data acc) q = q := by
      simp only [abbrevList, List.foldl_cons, List.foldl_nil]
      rw [eT, eP, eR, eN]
    rw [e4]
    have hruns := splitRunsAux_ws q none h1 (fun b l he => by cases he)
    rw [Prod.mk.injEq]
    constructor
    · rw [List.flatMap_eq_nil_iff]
      intro rn hrn
      obtain ⟨hb, hws⟩ := hruns rn hrn
      rw [hb]
      simp only [Bool.false_eq_true, if_false]
      exact tokensOfSpan_ws rn.2 hws
    · rw [List.flatMap_eq_nil_iff]
      intro rn hrn
      obtain ⟨hb, _⟩ := hruns rn hrn
      rw [hb]
      simp

/-- C9: a block whose text is empty or whitespace-only produces word
count 0 with an empty display list and a zero duration, both as a main
block and (for any main text) as an additional block; no error state
exists, the pipeline is total. -/
theorem claim_C9 (text brand_exclusions : String)
    (h : text.data.all Char.isWhitespace = true) :
    processMain text brand_exclusions = (0, [])
    ∧ calculate_duration (processMain text brand_exclusions).1 = (0, 0)
    ∧ (∀ main_text : String,
        processAdditional main_text text brand_exclusions = (0, [])) := by
  have he := extract_tokens_ws text brand_exclusions h
  have hm : processMain text brand_exclusions = (0, []) := by
    rw [processMain, he]
    rfl
  refine ⟨hm, by rw [hm]; rfl, ?_⟩
  intro main_text
  rw [processAdditional, he]
  rfl

/-- Witness for C9: a space-and-tab text with a nonempty exclusion list
yields zero words and zero duration. -/
theorem claim_C9_witness :
    processMain " \t " "Nike, Adidas" = (0, [])
    ∧ calculate_duration (processMain " \t " "Nike, Adidas").1 = (0, 0) := by
  have h := claim_C9 " \t " "Nike, Adidas" (by decide)
  exact ⟨h.1, h.2.1⟩

/-! ## First-match calculus for the URL pattern (C5) -/

theorem matchN_cat (n : Nat) (a b : RE) (p : Option Char) (s : List Char) :
    matchN n (.cat a b) p s =
      (matchN n a p s).flatMap (fun o => matchN n b o.1 o.2) := by
  cases n <;> rfl

theorem matchN_alt (n : Nat) (a b : RE) (p : Option Char) (s : List Char) :
    matchN n (.alt a b) p s = matchN n a p s ++ matchN n b p s := by
  cases n <;> rfl

theorem matchN_eps (n : Nat) (p : Option Char) (s : List Char) :
    matchN n .eps p s = [(p, s)] := by
  cases n <;> rfl

theorem matchN_cls_nil (n : Nat) (C : CClass) (p : Option Char) :
    matchN n (.cls C) p [] = [] := by
  cases n <;> rfl

theorem matchN_cls_cons (n : Nat) (C : CClass) (p : Option Char) (c : Char) (t : List Char) :
    matchN n (.cls C) p (c :: t) = if C.mem c then [(some c, t)] else [] := by
  cases n <;> rfl

theorem matchN_star_succ (n : Nat) (a : RE) (p : Option Char) (s : List Char) :
    matchN (n + 1) (.star a) p s =
      ((matchN (n + 1) a p s).filter (fun o => o.2.length < s.length)).flatMap
        (fun o => matchN n (.star a) o.1 o.2) ++ [(p, s)] := rfl

theorem first_cat {n : Nat} {a b : RE} {p : Option Char} {s u v : List Char}
    (h1 : ∃ q l, matchN n a p s = (q, u) :: l)
    (h2 : ∀ q : Option Char, ∃ q' l, matchN n b q u = (q', v) :: l) :
    ∃ q l, matchN n (.cat a b) p s = (q, v) :: l := by
  obtain ⟨q1, l1, h1⟩ := h1
  obtain ⟨q2, l2, h2⟩ := h2 q1
  refine ⟨q2, l2 ++ l1.flatMap (fun o => matchN n b o.1 o.2), ?_⟩
  rw [matchN_cat, h1, List.flatMap_cons, h2, List.cons_append]

theorem fail_cat {n : Nat} {a b : RE} {p : Option Char} {s : List Char}
    (h : matchN n a p s = []) : matchN n (.cat a b) p s = [] := by
  rw [matchN_cat, h]
  rfl

theorem first_alt_left {n : Nat} {a b : RE} {p : Option Char} {s u : List Char}
    (h : ∃ q l, matchN n a p s = (q, u) :: l) :
    ∃ q l, matchN n (.alt a b) p s = (q, u) :: l := by
  obtain ⟨q1, l1, h⟩ := h
  exact ⟨q1, l1 ++ matchN n b p s, by rw [matchN_alt, h, List.cons_append]⟩

theorem first_alt_right {n : Nat} {a b : RE} {p : Option Char} {s u : List Char}
    (ha : matchN n a p s = [])
    (h : ∃ q l, matchN n b p s = (q, u) :: l) :
    ∃ q l, matchN n (.alt a b) p s = (q, u) :: l := by
  obtain ⟨q1, l1, h⟩ := h
  exact ⟨q1, l1, by rw [matchN_alt, ha, h, List.nil_append]⟩

/-- Boolean prefix test distributes over pattern concatenation. -/
theorem startsL_append (p1 p2 s : List Char) :
    startsL (p1 ++ p2) s = (startsL p1 s && startsL p2 (s.drop p1.length)) := by
  induction p1 generalizing s with
  | nil => simp [startsL]
  | cons c p1 ih =>
    cases s with
    | nil => simp [startsL]
    | cons d t =>
      simp only [List.cons_append, startsL, List.length_cons, List.drop_succ_cons]
      by_cases hd : d = c
      · rw [if_pos hd, if_pos hd]
        exact ih t
      · rw [if_neg hd, if_neg hd]
        rfl

/-- A literal chain matches exactly a prefix. -/
theorem lits_first : ∀ (pat : List Char) (n : Nat) (p : Option Char) (s : List Char),
    startsL pat s = true →
    ∃ q, matchN n (RE.lits pat) p s = [(q, s.drop pat.length)] := by
  intro pat
  induction pat with
  | nil =>
    intro n p s _
    exact ⟨p, by simp [RE.lits, matchN_eps]⟩
  | cons c pat ih =>
    intro n p s hp
    cases s with
    | nil => simp [startsL] at hp
    | cons d t =>
      simp only [startsL] at hp
      by_cases hd : d = c
      · subst hd
        obtain ⟨q, hq⟩ := ih n (some d) t (by simpa [startsL, if_pos rfl] using hp)
        refine ⟨q, ?_⟩
        show matchN n (.cat (.cls (.lit d)) (RE.lits pat)) p (d :: t) = _
        rw [matchN_cat, matchN_cls_cons, if_pos (by simp [CClass.mem])]
        rw [List.flatMap_cons]
        simp only [List.flatMap_nil, List.append_nil]
        rw [hq]
        rfl
      · rw [if_neg hd] at hp
        exact absurd hp (by simp)

theorem lits_fail : ∀ (pat : List Char) (n : Nat) (p : Option Char) (s : List Char),
    startsL pat s = false →
    matchN n (RE.lits pat) p s = [] := by
  intro pat
  induction pat with
  | nil => intro n p s hp; simp [startsL] at hp
  | cons c pat ih =>
    intro n p s hp
    cases s with
    | nil =>
      show matchN n (.cat (.cls (.lit c)) (RE.lits pat)) p [] = []
      rw [matchN_cat, matchN_cls_nil]
      rfl
    | cons d t =>
      simp only [startsL] at hp
      show matchN n (.cat (.cls (.lit c)) (RE.lits pat)) p (d :: t) = []
      by_cases hd : d = c
      · rw [if_pos hd] at hp
        rw [matchN_cat, matchN_cls_cons, if_pos (by simp [CClass.mem, hd])]
        rw [List.flatMap_cons]
        simp only [List.flatMap_nil, List.append_nil]
        rw [ih n (some d) t hp]
      · rw [matchN_cat, matchN_cls_cons, if_neg (by simp [CClass.mem, hd])]
        rfl

theorem first_star_end {n : Nat} {a : RE} {p : Option Char} {s : List Char}
    (ha : matchN (n + 1) a p s = []) :
    matchN (n + 1) (.star a) p s = [(p, s)] := by
  rw [matchN_star_succ, ha]
  rfl

theorem first_star_step {n : Nat} {a : RE} {p : Option Char} {s u v : List Char}
    (h1 : ∃ q l, matchN (n + 1) a p s = (q, u) :: l)
    (hlt : u.length < s.length)
    (h2 : ∀ q : Option Char, ∃ q' l, matchN n (.star a) q u = (q', v) :: l) :
    ∃ q l, matchN (n + 1) (.star a) p s = (q, v) :: l := by
  obtain ⟨q1, l1, h1⟩ := h1
  obtain ⟨q2, l2, h2⟩ := h2 q1
  rw [matchN_star_succ, h1]
  rw [List.filter_cons, if_pos (by simpa using hlt)]
  rw [List.flatMap_cons, h2]
  exact ⟨q2, _, by rw [List.cons_append, List.cons_append]⟩

/-- Greedy head of `star` over a character class: consume the block `g`
entirely when the remainder cannot extend it. -/
theorem star_cls_first (C : CClass) :
    ∀ (g : List Char) (n : Nat) (p : Option Char) (r : List Char),
      g.all C.mem = true →
      (∀ c t, r = c :: t → C.mem c = false) →
      g.length ≤ n →
      ∃ q l, matchN (n + 1) (.star (.cls C)) p (g ++ r) = (q, r) :: l := by
  intro g
  induction g with
  | nil =>
    intro n p r _ hr _
    have ha : matchN (n + 1) (.cls C) p r = [] := by
      cases r with
      | nil => exact matchN_cls_nil _ _ _
      | cons c t => rw [matchN_cls_cons, if_neg (by simp [hr c t rfl])]
    exact ⟨p, [], by rw [List.nil_append, first_star_end ha]⟩
  | cons c g ih =>
    intro n p r hall hr hn
    rw [List.all_cons, Bool.and_eq_true] at hall
    cases n with
    | zero => simp at hn
    | succ m =>
      refine first_star_step ⟨some c, [], ?_⟩ ?_
        (fun q => ih m q r hall.2 hr (by simp only [List.length_cons] at hn; omega))
      · rw [List.cons_append, matchN_cls_cons, if_pos hall.1]
      · simp

/-- All outcomes of `star` over a class consume a class-only prefix. -/
theorem star_cls_outcomes (C : CClass) :
    ∀ (n : Nat) (p : Option Char) (s : List Char) (o : Option Char × List Char),
      o ∈ matchN n (.star (.cls C)) p s →
      ∃ g r, s = g ++ r ∧ g.all C.mem = true ∧ o.2 = r := by
  intro n
  induction n with
  | zero =>
    intro p s o ho
    have : o = (p, s) := by
      simpa [matchN, matchGo] using ho
    exact ⟨[], s, rfl, rfl, by rw [this]⟩
  | succ n ih =>
    intro p s o ho
    rw [matchN_star_succ] at ho
    rcases List.mem_append.mp ho with h | h
    · rcases List.mem_flatMap.mp h with ⟨o1, ho1, ho2⟩
      have h1 : o1 ∈ matchN (n + 1) (.cls C) p s := (List.mem_filter.mp ho1).1
      cases s with
      | nil => rw [matchN_cls_nil] at h1; simp at h1
      | cons c t =>
        rw [matchN_cls_cons] at h1
        by_cases hc : CClass.mem C c
        · rw [if_pos hc] at h1
          simp only [List.mem_singleton] at h1
          subst h1
          obtain ⟨g, r, ht, hg, ho2'⟩ := ih (some c) t o ho2
          refine ⟨c :: g, r, by rw [ht, List.cons_append], ?_, ho2'⟩
          rw [List.all_cons, Bool.and_eq_true]
          exact ⟨hc, hg⟩
        · rw [if_neg hc] at h1
          simp at h1
    · simp only [List.mem_singleton] at h
      subst h
      exact ⟨[], s, rfl, rfl, rfl⟩

/-- Greedy head of `+` over a character class. -/
theorem plus_cls_first (C : CClass) (g : List Char) (n : Nat) (p : Option Char)
    (r : List Char) (hne : g ≠ []) (hall : g.all C.mem = true)
    (hr : ∀ c t, r = c :: t → C.mem c = false) (hn : g.length ≤ n) :
    ∃ q l, matchN (n + 1) (RE.plus (.cls C)) p (g ++ r) = (q, r) :: l := by
  cases g with
  | nil => exact absurd rfl hne
  | cons c g =>
    rw [List.all_cons, Bool.and_eq_true] at hall
    refine first_cat (u := g ++ r) ⟨some c, [], ?_⟩ ?_
    · rw [List.cons_append, matchN_cls_cons, if_pos hall.1]
    · intro q
      exact star_cls_first C g n q r hall.2 hr (by simp at hn; omega)

/-- All outcomes of `+` over a class consume a nonempty class-only
prefix. -/
theorem plus_cls_outcomes (C : CClass) (n : Nat) (p : Option Char) (s : List Char)
    (o : Option Char × List Char) (ho : o ∈ matchN n (RE.plus (.cls C)) p s) :
    ∃ g r, s = g ++ r ∧ g ≠ [] ∧ g.all C.mem = true ∧ o.2 = r := by
  rw [RE.plus, matchN_cat] at ho
  rcases List.mem_flatMap.mp ho with ⟨o1, ho1, ho2⟩
  cases s with
  | nil => rw [matchN_cls_nil] at ho1; simp at ho1
  | cons c t =>
    rw [matchN_cls_cons] at ho1
    by_cases hc : CClass.mem C c
    · rw [if_pos hc] at ho1
      simp only [List.mem_singleton] at ho1
      subst ho1
      obtain ⟨g, r, ht, hg, ho2'⟩ := star_cls_outcomes C n (some c) t o ho2
      refine ⟨c :: g, r, by rw [ht, List.cons_append], by simp, ?_, ho2'⟩
      rw [List.all_cons, Bool.and_eq_true]
      exact ⟨hc, hg⟩
    · rw [if_neg hc] at ho1
      simp at ho1

theorem startsL_cons_false {c0 : Char} {rest s : List Char}
    (h : startsL [c0] s = false) : startsL (c0 :: rest) s = false := by
  cases s with
  | nil => rfl
  | cons d t =>
    simp only [startsL] at h ⊢
    by_cases hd : d = c0
    · rw [if_pos hd] at h
      simp [startsL] at h
    · rw [if_neg hd]

/-- If a block of `P`-characters is a prefix of `tld ++ path` and `path`
cannot start with a `P`-character, the block lies inside `tld`. -/
theorem append_split_of_all {P : Char → Bool} :
    ∀ (g tld r path : List Char), g ++ r = tld ++ path →
      g.all P = true →
      (∀ c t, path = c :: t → P c = false) →
      ∃ r', tld = g ++ r' ∧ r = r' ++ path := by
  intro g
  induction g with
  | nil =>
    intro tld r path he _ _
    exact ⟨tld, rfl, by rw [← he]; rfl⟩
  | cons c g ih =>
    intro tld r path he hall hpath
    rw [List.all_cons, Bool.and_eq_true] at hall
    cases tld with
    | nil =>
      rw [List.nil_append] at he
      rw [List.cons_append] at he
      rw [hpath c (g ++ r) he.symm] at hall
      exact absurd hall.1 (by simp)
    | cons d tld' =>
      rw [List.cons_append, List.cons_append] at he
      injection he with h1 h2
      subst h1
      obtain ⟨r', hr1, hr2⟩ := ih tld' r path h2 hall.2 hpath
      exact ⟨r', by rw [hr1, List.cons_append], hr2⟩

/-- Head of one hostname-label iteration: consume `g` and its dot. -/
theorem labelDot_first (g : List Char) (n : Nat) (p : Option Char) (rest : List Char)
    (hne : g ≠ []) (hall : g.all (CClass.mem .alnumDashC) = true)
    (hn : g.length ≤ n) :
    ∃ q l, matchN (n + 1) labelDotRE p (g ++ '.' :: rest) = (q, rest) :: l := by
  refine first_cat (u := '.' :: rest) ?_ ?_
  · exact plus_cls_first _ g n p ('.' :: rest) hne hall
      (fun c t he => by injection he with h1 _; subst h1; decide) hn
  · intro q
    exact ⟨some '.', [], by rw [matchN_cls_cons, if_pos (by decide)]⟩

/-- No further label iteration can start inside `tld ++ path`. -/
theorem labelDot_fail (n : Nat) (p : Option Char) (tld path : List Char)
    (htld : ∀ c ∈ tld, c.isAlpha = true)
    (hpath : ∀ c t, path = c :: t → c = '/') :
    matchN n labelDotRE p (tld ++ path) = [] := by
  refine List.eq_nil_iff_forall_not_mem.mpr fun o ho => ?_
  rw [labelDotRE, matchN_cat] at ho
  rcases List.mem_flatMap.mp ho with ⟨o1, ho1, ho2⟩
  obtain ⟨g, r, he, hg, hgall, hor⟩ := plus_cls_outcomes _ n p _ o1 ho1
  obtain ⟨r', hr1, hr2⟩ := append_split_of_all g tld r path he.symm hgall
    (fun c t hp => by rw [hpath c t hp]; decide)
  rw [hor, hr2] at ho2
  cases r' with
  | nil =>
    cases path with
    | nil => rw [List.nil_append, matchN_cls_nil] at ho2; simp at ho2
    | cons c t =>
      rw [hpath c t rfl] at ho2
      rw [List.nil_append, matchN_cls_cons, if_neg (by decide)] at ho2
      simp at ho2
  | cons e r'' =>
    have he' : e.isAlpha = true := htld e (by rw [hr1]; simp)
    rw [List.cons_append, matchN_cls_cons] at ho2
    have : CClass.mem (.lit '.') e = false := by
      simp only [CClass.mem]
      by_cases h : e = '.'
      · subst h; simp at he'
      · simp [h]
    rw [if_neg (by simp [this])] at ho2
    simp at ho2

/-- Head of the label-star: consume all hostname labels and stop before
the TLD. -/
theorem star_labelDot_first :
    ∀ (ls : List (List Char)) (n : Nat) (p : Option Char) (tld path : List Char),
      (∀ l ∈ ls, l ≠ [] ∧ l.all (CClass.mem .alnumDashC) = true) →
      (∀ c ∈ tld, c.isAlpha = true) →
      (∀ c t, path = c :: t → c = '/') →
      (ls.flatMap (fun l => l ++ ['.'])).length ≤ n →
      ∃ q l, matchN (n + 1) (.star labelDotRE) p
          (ls.flatMap (fun l => l ++ ['.']) ++ (tld ++ path)) = (q, tld ++ path) :: l := by
  intro ls
  induction ls with
  | nil =>
    intro n p tld path _ htld hpath _
    rw [List.flatMap_nil, List.nil_append]
    exact ⟨p, [], by rw [first_star_end (labelDot_fail (n + 1) p tld path htld hpath)]⟩
  | cons l0 ls ih =>
    intro n p tld path hls htld hpath hn
    obtain ⟨h0ne, h0all⟩ := hls l0 (List.mem_cons_self _ _)
    rw [List.flatMap_cons] at hn ⊢
    have hshape : (l0 ++ ['.']) ++ ls.flatMap (fun l => l ++ ['.']) ++ (tld ++ path) =
        l0 ++ '.' :: (ls.flatMap (fun l => l ++ ['.']) ++ (tld ++ path)) := by
      simp [List.append_assoc]
    rw [hshape]
    rw [List.length_append, List.length_append, List.length_cons] at hn
    cases n with
    | zero => omega
    | succ m =>
      refine first_star_step (u := ls.flatMap (fun l => l ++ ['.']) ++ (tld ++ path)) ?_ ?_ ?_
      · exact labelDot_first l0 (m + 1) p _ h0ne h0all (by omega)
      · simp only [List.length_append, List.length_cons]
        have : 1 ≤ l0.length := by
          cases l0 with
          | nil => exact absurd rfl h0ne
          | cons _ _ => simp
        omega
      · intro q
        exact ih m q tld path (fun l hl => hls l (List.mem_cons_of_mem _ hl)) htld hpath
          (by omega)

/-- Head of `[a-zA-Z]{2,}`: consume the whole TLD, stopping at the path
or the end. -/
theorem rep2_first (n : Nat) (p : Option Char) (tld path : List Char)
    (h2 : 2 ≤ tld.length) (hall : ∀ c ∈ tld, c.isAlpha = true)
    (hpath : ∀ c t, path = c :: t → c = '/')
    (hn : tld.length ≤ n) :
    ∃ q l, matchN (n + 1) (RE.rep2 .alphaC) p (tld ++ path) = (q, path) :: l := by
  cases tld with
  | nil => simp at h2
  | cons t1 tld' =>
    cases tld' with
    | nil => simp at h2
    | cons t2 tl =>
      have h1 : CClass.mem .alphaC t1 = true := hall t1 (by simp)
      have h2' : CClass.mem .alphaC t2 = true := hall t2 (by simp)
      refine first_cat (u := t2 :: tl ++ path) ⟨some t1, [], ?_⟩ ?_
      · rw [List.cons_append, matchN_cls_cons, if_pos h1]
      · intro q
        refine first_cat (u := tl ++ path) ⟨some t2, [], ?_⟩ ?_
        · rw [List.cons_append, matchN_cls_cons, if_pos h2']
        · intro q'
          refine star_cls_first .alphaC tl n q' path ?_ ?_ ?_
          · exact List.all_eq_true.mpr (fun c hc => hall c (by simp [hc]))
          · intro c t hp
            rw [hpath c t hp]
            decide
          · simp only [List.length_cons] at hn
            omega

theorem scheme_first (n : Nat) (p : Option Char) (sch : UrlScheme) (rest : List Char)
    (hs : sch ≠ .none) :
    ∃ q l, matchN n schemeRE p (sch.render ++ rest) = (q, rest) :: l := by
  cases sch with
  | none => exact absurd rfl hs
  | http =>
    refine first_cat (u := ':' :: '/' :: '/' :: rest) ?_ ?_
    · obtain ⟨q, hq⟩ := lits_first ['h', 't', 't', 'p'] n p
        ('h' :: 't' :: 't' :: 'p' :: ':' :: '/' :: '/' :: rest) (by simp [startsL])
      exact ⟨q, [], hq⟩
    · intro q
      refine first_cat (u := ':' :: '/' :: '/' :: rest) ?_ ?_
      · refine first_alt_right ?_ ⟨q, [], by rw [matchN_eps]⟩
        rw [matchN_cls_cons, if_neg (by decide)]
      · intro q'
        obtain ⟨q'', hq⟩ := lits_first [':', '/', '/'] n q'
          (':' :: '/' :: '/' :: rest) (by simp [startsL])
        exact ⟨q'', [], hq⟩
  | https =>
    refine first_cat (u := 's' :: ':' :: '/' :: '/' :: rest) ?_ ?_
    · obtain ⟨q, hq⟩ := lits_first ['h', 't', 't', 'p'] n p
        ('h' :: 't' :: 't' :: 'p' :: 's' :: ':' :: '/' :: '/' :: rest) (by simp [startsL])
      exact ⟨q, [], hq⟩
    · intro q
      refine first_cat (u := ':' :: '/' :: '/' :: rest) ?_ ?_
      · refine first_alt_left ⟨some 's', [], ?_⟩
        rw [matchN_cls_cons, if_pos (by decide)]
      · intro q'
        obtain ⟨q'', hq⟩ := lits_first [':', '/', '/'] n q'
          (':' :: '/' :: '/' :: rest) (by simp [startsL])
        exact ⟨q'', [], hq⟩

theorem scheme_fail (n : Nat) (p : Option Char) (s : List Char)
    (hs1 : startsL ("http:".data) s = false)
    (hs2 : startsL ("https:".data) s = false) :
    matchN n schemeRE p s = [] := by
  by_cases h4 : startsL ("http".data) s = true
  · obtain ⟨q, hq⟩ := lits_first ("http".data) n p s h4
    have hq' : matchN n (RE.lits ("http".data)) p s = [(q, s.drop 4)] := hq
    rw [schemeRE, matchN_cat, hq', List.flatMap_cons]
    simp only [List.flatMap_nil, List.append_nil]
    have hu1 : startsL [':'] (s.drop 4) = false := by
      have := startsL_append ("http".data) [':'] s
      simp only [show ("http".data) ++ [':'] = "http:".data from rfl] at this
      rw [hs1, h4] at this
      simpa using this.symm
    rw [matchN_cat, RE.opt, matchN_alt]
    cases hu : s.drop 4 with
    | nil =>
      rw [matchN_cls_nil]
      rw [List.nil_append, matchN_eps, List.flatMap_cons]
      simp only [List.flatMap_nil, List.append_nil]
      exact lits_fail _ n q [] (by rfl)
    | cons c u' =>
      by_cases hc : c = 's'
      · subst hc
        rw [matchN_cls_cons, if_pos (by decide)]
        have hu2 : startsL [':'] u' = false := by
          have h5 : startsL ("https".data) s = true := by
            have e5 : ("https".data) = ("http".data) ++ ['s'] := rfl
            rw [e5, startsL_append, h4]
            have hd4 : List.drop (("http".data).length) s = 's' :: u' := hu
            rw [hd4]
            simp [startsL]
          have hb := startsL_append ("https".data) [':'] s
          simp only [show ("https".data) ++ [':'] = "https:".data from rfl] at hb
          rw [hs2, h5] at hb
          have hb2 : false = (true && startsL [':'] (List.drop 5 s)) := hb
          have hd5 : List.drop 5 s = u' := by
            have hdd : List.drop 5 s = List.drop 1 (List.drop 4 s) := by
              rw [List.drop_drop]
            rw [hdd, hu]
            rfl
          rw [hd5] at hb2
          simpa using hb2.symm
        rw [matchN_eps, List.singleton_append, List.flatMap_cons, List.flatMap_cons]
        simp only [List.flatMap_nil, List.append_nil]
        rw [lits_fail [':', '/', '/'] n (some 's') u' (startsL_cons_false hu2)]
        have hfq : matchN n (RE.lits [':', '/', '/']) q ('s' :: u') = [] := by
          refine lits_fail [':', '/', '/'] n q ('s' :: u') ?_
          exact startsL_cons_false (by simp [startsL])
        rw [hfq]
        rfl
      · rw [matchN_cls_cons, if_neg (by simp [CClass.mem, hc])]
        rw [List.nil_append, matchN_eps, List.flatMap_cons]
        simp only [List.flatMap_nil, List.append_nil]
        refine lits_fail [':', '/', '/'] n q (c :: u') ?_
        refine startsL_cons_false ?_
        rw [← hu]
        exact hu1
  · rw [Bool.not_eq_true] at h4
    exact fail_cat (lits_fail _ n p s h4)


theorem pathStr_head (path : Option (List Char)) :
    ∀ c t, pathStr path = c :: t → c = '/' := by
  intro c t h
  cases path with
  | none => cases h
  | some pl =>
    injection h with h1 _
    exact h1.symm

/-- Head of the optional path: consume it entirely (a path has no
whitespace, and the text ends with it). -/
theorem optPath_first (n : Nat) (p : Option Char) (path : Option (List Char))
    (hws : ∀ pl, path = some pl → ∀ c ∈ pl, c.isWhitespace = false)
    (hn : (pathStr path).length ≤ n) :
    ∃ q l, matchN (n + 1) (RE.opt pathRE) p (pathStr path) = (q, []) :: l := by
  cases path with
  | none =>
    refine first_alt_right ?_ ⟨p, [], by rw [matchN_eps, show pathStr none = [] from rfl]⟩
    exact fail_cat (matchN_cls_nil _ _ _)
  | some pl =>
    refine first_alt_left ?_
    refine first_cat (u := pl) ⟨some '/', [], ?_⟩ ?_
    · rw [show pathStr (some pl) = '/' :: pl from rfl, matchN_cls_cons, if_pos (by decide)]
    · intro q
      have h := star_cls_first .notSpaceCh pl n q [] ?_ (by intro c t h; cases h) ?_
      · simpa using h
      · refine List.all_eq_true.mpr (fun c hc => ?_)
        simp only [CClass.mem]
        rw [hws pl rfl c hc]
        rfl
      · rw [show pathStr (some pl) = '/' :: pl from rfl] at hn
        simp only [List.length_cons] at hn
        omega

/-- Head of the hostname-TLD-path part: consume everything. -/
theorem host_first (ls : List (List Char)) (tld : List Char) (path : Option (List Char))
    (n : Nat) (p : Option Char)
    (hls : ls ≠ []) (hlab : ∀ l ∈ ls, l ≠ [] ∧ l.all (CClass.mem .alnumDashC) = true)
    (htld2 : 2 ≤ tld.length) (htld : ∀ c ∈ tld, c.isAlpha = true)
    (hpws : ∀ pl, path = some pl → ∀ c ∈ pl, c.isWhitespace = false)
    (hn : (ls.flatMap (fun l => l ++ ['.']) ++ (tld ++ pathStr path)).length ≤ n) :
    ∃ q l, matchN (n + 1)
        (.cat (RE.plus labelDotRE) (.cat (RE.rep2 .alphaC) (RE.opt pathRE))) p
        (ls.flatMap (fun l => l ++ ['.']) ++ (tld ++ pathStr path)) = (q, []) :: l := by
  rw [List.length_append, List.length_append] at hn
  cases ls with
  | nil => exact absurd rfl hls
  | cons l0 ls' =>
    obtain ⟨h0ne, h0all⟩ := hlab l0 (List.mem_cons_self _ _)
    refine first_cat (u := tld ++ pathStr path) ?_ ?_
    · have hshape : (l0 :: ls').flatMap (fun l => l ++ ['.']) ++ (tld ++ pathStr path) =
          l0 ++ '.' :: (ls'.flatMap (fun l => l ++ ['.']) ++ (tld ++ pathStr path)) := by
        rw [List.flatMap_cons]
        simp [List.append_assoc]
      rw [RE.plus, hshape]
      have hlen0 : ((l0 :: ls').flatMap (fun l => l ++ ['.'])).length =
          l0.length + 1 + (ls'.flatMap (fun l => l ++ ['.'])).length := by
        rw [List.flatMap_cons, List.length_append, List.length_append]
        simp
      rw [hlen0] at hn
      refine first_cat
        (u := ls'.flatMap (fun l => l ++ ['.']) ++ (tld ++ pathStr path)) ?_ ?_
      · exact labelDot_first l0 n p _ h0ne h0all (by omega)
      · intro q
        exact star_labelDot_first ls' n q tld (pathStr path)
          (fun l hl => hlab l (List.mem_cons_of_mem _ hl)) htld (pathStr_head path)
          (by omega)
    · intro q
      refine first_cat (u := pathStr path) ?_ ?_
      · exact rep2_first n q tld (pathStr path) htld2 htld (pathStr_head path) (by omega)
      · intro q'
        refine optPath_first n q' path hpws ?_
        cases path with
        | none => simp [pathStr]
        | some pl =>
          rw [show pathStr (some pl) = '/' :: pl from rfl] at hn ⊢
          simp only [List.length_cons] at hn ⊢
          omega

/-- The URL pattern's reported match on a standalone URL consumes the
whole text. -/
theorem urlRE_first (sch : UrlScheme) (www : Bool) (ls : List (List Char))
    (tld : List Char) (path : Option (List Char)) (n : Nat) (p : Option Char)
    (hls : ls ≠ []) (hlab : ∀ l ∈ ls, l ≠ [] ∧ l.all (CClass.mem .alnumDashC) = true)
    (htld2 : 2 ≤ tld.length) (htld : ∀ c ∈ tld, c.isAlpha = true)
    (hpws : ∀ pl, path = some pl → ∀ c ∈ pl, c.isWhitespace = false)
    (hschN : sch = .none →
      startsL ("http:".data) ((if www then "www.".data else []) ++
        (ls.flatMap (fun l => l ++ ['.']) ++ (tld ++ pathStr path))) = false ∧
      startsL ("https:".data) ((if www then "www.".data else []) ++
        (ls.flatMap (fun l => l ++ ['.']) ++ (tld ++ pathStr path))) = false)
    (hwwwN : www = false →
      startsL ("www.".data)
        (ls.flatMap (fun l => l ++ ['.']) ++ (tld ++ pathStr path)) = false)
    (hn : (renderUrl sch www ls tld path).length ≤ n) :
    ∃ q l, matchN (n + 1) urlRE p (renderUrl sch www ls tld path) = (q, []) :: l := by
  have hrw : renderUrl sch www ls tld path =
      sch.render ++ ((if www then "www.".data else []) ++
        (ls.flatMap (fun l => l ++ ['.']) ++ (tld ++ pathStr path))) := by
    rw [renderUrl]
    simp [List.append_assoc]
  rw [hrw] at hn ⊢
  have hbody : ∀ q : Option Char, ∃ q' l,
      matchN (n + 1)
        (.cat (RE.opt (.lits ['w', 'w', 'w', '.']))
          (.cat (RE.plus labelDotRE) (.cat (RE.rep2 .alphaC) (RE.opt pathRE)))) q
        ((if www then "www.".data else []) ++
          (ls.flatMap (fun l => l ++ ['.']) ++ (tld ++ pathStr path))) = (q', []) :: l := by
    intro q
    have hnb : ((if www then "www.".data else []) ++
        (ls.flatMap (fun l => l ++ ['.']) ++ (tld ++ pathStr path))).length ≤ n := by
      rw [List.length_append] at hn
      omega
    cases www with
    | true =>
      refine first_cat
        (u := ls.flatMap (fun l => l ++ ['.']) ++ (tld ++ pathStr path)) ?_ ?_
      · refine first_alt_left ?_
        obtain ⟨q1, hq⟩ := lits_first ['w', 'w', 'w', '.'] (n + 1) q
          ((if true then "www.".data else []) ++
            (ls.flatMap (fun l => l ++ ['.']) ++ (tld ++ pathStr path)))
          (by simp [startsL])
        refine ⟨q1, [], ?_⟩
        exact hq
      · intro q2
        refine host_first ls tld path n q2 hls hlab htld2 htld hpws ?_
        rw [if_pos rfl, List.length_append] at hnb
        omega
    | false =>
      rw [if_neg (by simp), List.nil_append]
      refine first_cat
        (u := ls.flatMap (fun l => l ++ ['.']) ++ (tld ++ pathStr path)) ?_ ?_
      · refine first_alt_right (lits_fail _ _ _ _ (hwwwN rfl)) ⟨q, [], ?_⟩
        rw [matchN_eps]
      · intro q2
        refine host_first ls tld path n q2 hls hlab htld2 htld hpws ?_
        rw [if_neg (by simp), List.nil_append] at hnb
        exact hnb
  cases sch with
  | none =>
    rw [show UrlScheme.none.render = ([] : List Char) from rfl, List.nil_append]
    refine first_cat (u := (if www then "www.".data else []) ++
      (ls.flatMap (fun l => l ++ ['.']) ++ (tld ++ pathStr path))) ?_ hbody
    obtain ⟨h1, h2⟩ := hschN rfl
    refine first_alt_right (scheme_fail _ _ _ h1 h2) ⟨p, [], ?_⟩
    rw [matchN_eps]
  | http =>
    refine first_cat (u := (if www then "www.".data else []) ++
      (ls.flatMap (fun l => l ++ ['.']) ++ (tld ++ pathStr path))) ?_ hbody
    exact first_alt_left (scheme_first (n + 1) p .http _ (by simp))
  | https =>
    refine first_cat (u := (if www then "www.".data else []) ++
      (ls.flatMap (fun l => l ++ ['.']) ++ (tld ++ pathStr path))) ?_ hbody
    exact first_alt_left (scheme_first (n + 1) p .https _ (by simp))

/-- C5 amended: the URL substitution replaces each pattern match by one
placeholder, and a text that is exactly one URL — optional http/https
scheme, optional `www.`, one or more alphanumeric-hyphen hostname labels,
a TLD of at least two letters, an optional whitespace-free path (with
the natural non-ambiguity conditions: absent components do not reappear
literally at the front of the text) — normalizes to exactly the display
token "[URL]" and counts as exactly one word.  (When `&` glues the
placeholder to adjacent word characters it can be absorbed into a larger
token; see the counterexample.) -/
theorem claim_C5_amended (sch : UrlScheme) (www : Bool) (ls : List (List Char))
    (tld : List Char) (path : Option (List Char))
    (hls : ls ≠ []) (hlab : ∀ l ∈ ls, l ≠ [] ∧ l.all (CClass.mem .alnumDashC) = true)
    (htld2 : 2 ≤ tld.length) (htld : ∀ c ∈ tld, c.isAlpha = true)
    (hpws : ∀ pl, path = some pl → ∀ c ∈ pl, c.isWhitespace = false)
    (hschN : sch = .none →
      startsL ("http:".data) ((if www then "www.".data else []) ++
        (ls.flatMap (fun l => l ++ ['.']) ++ (tld ++ pathStr path))) = false ∧
      startsL ("https:".data) ((if www then "www.".data else []) ++
        (ls.flatMap (fun l => l ++ ['.']) ++ (tld ++ pathStr path))) = false)
    (hwwwN : www = false →
      startsL ("www.".data)
        (ls.flatMap (fun l => l ++ ['.']) ++ (tld ++ pathStr path)) = false) :
    extract_tokens (String.mk (renderUrl sch www ls tld path)) "" = (["[URL]"], [])
    ∧ processMain (String.mk (renderUrl sch www ls tld path)) "" = (1, ["[URL]"]) := by
  have hnil : renderUrl sch www ls tld path ≠ [] := by
    rw [renderUrl]
    intro h
    simp only [List.append_eq_nil] at h
    rw [h.1.2] at htld2
    simp at htld2
  have hne : String.mk (renderUrl sch www ls tld path) ≠ "" := by
    intro h
    exact hnil (congrArg String.data h)
  have hfirst := urlRE_first sch www ls tld path
    (renderUrl sch www ls tld path).length none hls hlab htld2 htld hpws hschN hwwwN
    (le_refl _)
  have hsub : subRE urlRE ("SAFE_TOKEN_URL".data) (renderUrl sch www ls tld path) =
      "SAFE_TOKEN_URL".data := by
    obtain ⟨q, l, hf⟩ := hfirst
    rw [subRE]
    cases hr : renderUrl sch www ls tld path with
    | nil => exact absurd hr hnil
    | cons c t =>
      rw [hr] at hf
      have hAt : matchAt urlRE none (c :: t) = some (q, []) := by
        rw [matchAt, hf]
        rfl
      simp only [subREAux, hAt]
      rw [if_pos (by simp)]
      simp [subREAux]
  have hext : extract_tokens (String.mk (renderUrl sch www ls tld path)) "" =
      (["[URL]"], []) := by
    rw [extract_tokens, if_neg hne]
    dsimp only
    rw [show applyExclusions "" (renderUrl sch www ls tld path) =
      renderUrl sch www ls tld path from rfl]
    rw [hsub]
    decide
  refine ⟨hext, ?_⟩
  rw [processMain, hext]
  decide

/-- Witness for C5 amended: "https://www.bit.ly/x1" normalizes to the
single display token "[URL]" and counts one word. -/
theorem claim_C5_amended_witness :
    extract_tokens (String.mk (renderUrl .https true [['b', 'i', 't']] ['l', 'y']
        (some ['x', '1']))) "" = (["[URL]"], [])
    ∧ processMain (String.mk (renderUrl .https true [['b', 'i', 't']] ['l', 'y']
        (some ['x', '1']))) "" = (1, ["[URL]"]) :=
  claim_C5_amended .https true [['b', 'i', 't']] ['l', 'y'] (some ['x', '1'])
    (by decide) (by decide) (by decide) (by decide)
    (fun pl hpl => by injection hpl with h; subst h; decide)
    (fun h => UrlScheme.noConfusion h)
    (fun h => Bool.noConfusion h)
